import Mathlib

/-!
Shallow embedding of the pipeline orchestration and batching code of the
autonmt repository, together with theorems checking the natural-language
specification against it.

Part 1 models `TranslationDataset.collate_fn`
(src/autonmt/tasks/translation/bundle/translation_dataset.py, lines 44-75):
the dynamic token-budget batch constructor.  Encoded token sequences are
`List Nat`; the two vocabulary encoders are abstract functions from sample
text to token sequences; `torch.nn.utils.rnn.pad_sequence` is modelled by
`padSeq`, which fails (returns `none`) on an empty list of sequences, as the
real function raises in that case.  The padded arrays are batch-major lists
of rows, so `total_elements` is the sum of row lengths.
-/

namespace AutoNMT

abbrev Tok := Nat

/-- Model of the acceptance test on line 59 of translation_dataset.py:
`max_tokens is None or (i+1)*(x_max_len+y_max_len) <= max_tokens`. -/
def budgetOk (maxTokens : Option Nat) (i xM yM : Nat) : Bool :=
  match maxTokens with
  | none => true
  | some b => decide ((i + 1) * (xM + yM) ≤ b)

/-- Model of the accumulation loop of `collate_fn` (lines 49-66).  The
arguments `i`, `xMaxLen`, `yMaxLen` are the loop counter and the running
maxima of encoded source/target lengths; note the maxima are updated with the
current sample BEFORE the acceptance test, exactly as in the source.  Returns
the accepted encoded source rows, the accepted encoded target rows, and the
index of the first rejected sample, if any (the source prints its warning and
breaks at that point). -/
def collateGo {α : Type} (encX encY : α → List Tok) (maxTokens : Option Nat) :
    List (α × α) → Nat → Nat → Nat →
    List (List Tok) × List (List Tok) × Option Nat
  | [], _, _, _ => ([], [], none)
  | (x, y) :: rest, i, xMaxLen, yMaxLen =>
    let xM := max xMaxLen (encX x).length
    let yM := max yMaxLen (encY y).length
    if budgetOk maxTokens i xM yM then
      match collateGo encX encY maxTokens rest (i + 1) xM yM with
      | (xs, ys, r) => (encX x :: xs, encY y :: ys, r)
    else
      ([], [], some i)

/-- Model of `pad_sequence(...).T` (lines 69-70): pads every row to the
maximum row length with the vocabulary's pad id, producing a batch-major
rectangular array.  `pad_sequence` raises on an empty list of sequences,
modelled here by `none`. -/
def padSeq (padId : Tok) (seqs : List (List Tok)) : Option (List (List Tok)) :=
  match seqs with
  | [] => none
  | _ =>
    let maxLen := (seqs.map List.length).foldl max 0
    some (seqs.map (fun s => s ++ List.replicate (maxLen - s.length) padId))

/-- The pair of padded arrays returned by `collate_fn`. -/
structure CollateOut where
  xPadded : List (List Tok)
  yPadded : List (List Tok)
deriving DecidableEq, Repr

/-- Model of `TranslationDataset.collate_fn` (lines 44-75): run the
accumulation loop from counter 0 and zero running maxima, then pad both
sides.  A `none` result models the `pad_sequence` failure when no sample was
accepted. -/
def collate_fn {α : Type} (encX encY : α → List Tok) (srcPad trgPad : Tok)
    (batch : List (α × α)) (maxTokens : Option Nat) : Option CollateOut :=
  match collateGo encX encY maxTokens batch 0 0 0 with
  | (xs, ys, _) =>
    match padSeq srcPad xs, padSeq trgPad ys with
    | some xp, some yp => some ⟨xp, yp⟩
    | _, _ => none

/-- Number of samples accepted by the accumulation loop. -/
def acceptedCount {α : Type} (encX encY : α → List Tok)
    (batch : List (α × α)) (maxTokens : Option Nat) : Nat :=
  (collateGo encX encY maxTokens batch 0 0 0).1.length

/-- The value printed by the warning on lines 63-65:
`drop_ratio = 1 - ((i+1)/len(batch))`, with `i` the index of the first
rejected sample. -/
def dropRatioReported (i n : Nat) : ℚ := 1 - ((i + 1 : ℚ) / (n : ℚ))

/-- The fraction of the batch that is actually dropped when `accepted`
samples out of `n` are kept, as the specification states it. -/
def droppedFraction (accepted n : Nat) : ℚ := 1 - ((accepted : ℚ) / (n : ℚ))

/-- The warning value emitted by `collate_fn`, if the budget forced a drop. -/
def collateWarn {α : Type} (encX encY : α → List Tok)
    (batch : List (α × α)) (maxTokens : Option Nat) : Option ℚ :=
  (collateGo encX encY maxTokens batch 0 0 0).2.2.map
    (fun i => dropRatioReported i batch.length)

/-- Encoded source lengths of a batch, in input order. -/
def srcLens {α : Type} (encX : α → List Tok) (batch : List (α × α)) : List Nat :=
  batch.map (fun p => (encX p.1).length)

/-- Encoded target lengths of a batch, in input order. -/
def trgLens {α : Type} (encY : α → List Tok) (batch : List (α × α)) : List Nat :=
  batch.map (fun p => (encY p.2).length)

/-- Running maximum over the first `i+1` entries of a length list: the value
of `x_max_len`/`y_max_len` right after sample `i` is processed. -/
def runningMax (lens : List Nat) (i : Nat) : Nat :=
  (lens.take (i + 1)).foldl max 0

/-- Total element count of a batch-major array: the sum of row lengths. -/
def totalElems (a : List (List Tok)) : Nat := (a.map List.length).sum

/-! Helper lemmas about folds and the accumulation loop. -/

theorem foldl_max_shift (l : List Nat) : ∀ a : Nat, l.foldl max a = max a (l.foldl max 0) := by
  induction l with
  | nil => intro a; simp
  | cons h t ih =>
    intro a
    simp only [List.foldl_cons]
    rw [ih (max a h), ih (max 0 h)]
    simp [Nat.max_comm, Nat.max_assoc, Nat.max_left_comm]

theorem mem_le_foldl_max {l : List Nat} {a : Nat} (h : a ∈ l) : a ≤ l.foldl max 0 := by
  induction l with
  | nil => cases h
  | cons x t ih =>
    rw [List.foldl_cons, foldl_max_shift]
    rcases List.mem_cons.mp h with rfl | hmem
    · exact le_max_of_le_left (by omega)
    · exact le_max_of_le_right (ih hmem)

theorem sum_map_const {β : Type} (a : List β) (f : β → Nat) (c : Nat)
    (h : ∀ s ∈ a, f s = c) : (a.map f).sum = a.length * c := by
  induction a with
  | nil => simp
  | cons x t ih =>
    simp only [List.map_cons, List.sum_cons, List.length_cons]
    rw [h x (List.mem_cons_self x t), ih (fun s hs => h s (List.mem_cons_of_mem x hs))]
    ring

/-- Structure of the loop result: the accepted rows are exactly the encodings
of a prefix of the batch, in input order (so the loop stops for good at the
first rejection and never reorders). -/
theorem collateGo_accepted_rows {α : Type} (encX encY : α → List Tok) (B : Option Nat) :
    ∀ (ps : List (α × α)) (i xM yM : Nat),
      (collateGo encX encY B ps i xM yM).1 =
        (ps.take (collateGo encX encY B ps i xM yM).1.length).map (fun p => encX p.1) ∧
      (collateGo encX encY B ps i xM yM).2.1 =
        (ps.take (collateGo encX encY B ps i xM yM).1.length).map (fun p => encY p.2) ∧
      (collateGo encX encY B ps i xM yM).2.1.length =
        (collateGo encX encY B ps i xM yM).1.length := by
  intro ps
  induction ps with
  | nil => intro i xM yM; simp [collateGo]
  | cons hd rest ih =>
    intro i xM yM
    obtain ⟨x, y⟩ := hd
    simp only [collateGo]
    by_cases hb : budgetOk B i (max xM (encX x).length) (max yM (encY y).length)
    · simp only [hb, if_true]
      obtain ⟨ih1, ih2, ih3⟩ := ih (i + 1) (max xM (encX x).length) (max yM (encY y).length)
      rcases hgo : collateGo encX encY B rest (i + 1) (max xM (encX x).length)
        (max yM (encY y).length) with ⟨xs, ys, r⟩
      rw [hgo] at ih1 ih2 ih3
      dsimp only at ih1 ih2 ih3 ⊢
      refine ⟨?_, ?_, ?_⟩
      · simp only [List.length_cons, List.take_succ_cons, List.map_cons]
        exact congrArg (encX x :: ·) ih1
      · simp only [List.length_cons, List.take_succ_cons, List.map_cons]
        exact congrArg (encY y :: ·) ih2
      · simp [ih3]
    · simp [hb]

/-- With no token budget, every sample of the batch is accepted. -/
theorem collateGo_none_all {α : Type} (encX encY : α → List Tok) :
    ∀ (ps : List (α × α)) (i xM yM : Nat),
      (collateGo encX encY none ps i xM yM).1.length = ps.length := by
  intro ps
  induction ps with
  | nil => intro i xM yM; simp [collateGo]
  | cons hd rest ih =>
    intro i xM yM
    obtain ⟨x, y⟩ := hd
    simp only [collateGo, budgetOk, if_true]
    rcases hgo : collateGo encX encY none rest (i + 1) (max xM (encX x).length)
      (max yM (encY y).length) with ⟨xs, ys, r⟩
    have := ih (i + 1) (max xM (encX x).length) (max yM (encY y).length)
    rw [hgo] at this
    simpa using this

/-- Every accepted sample passed the acceptance test at its own position,
with the running maxima seeded by the loop's incoming accumulators. -/
theorem collateGo_accept_cond {α : Type} (encX encY : α → List Tok) (b : Nat) :
    ∀ (ps : List (α × α)) (i xM yM : Nat) (j : Nat),
      j < (collateGo encX encY (some b) ps i xM yM).1.length →
      (i + j + 1) * (max xM (runningMax (srcLens encX ps) j) +
                     max yM (runningMax (trgLens encY ps) j)) ≤ b := by
  intro ps
  induction ps with
  | nil => intro i xM yM j hj; simp [collateGo] at hj
  | cons hd rest ih =>
    intro i xM yM j hj
    obtain ⟨x, y⟩ := hd
    simp only [collateGo] at hj
    by_cases hb : budgetOk (some b) i (max xM (encX x).length) (max yM (encY y).length)
    · simp only [hb, if_true] at hj
      rcases hgo : collateGo encX encY (some b) rest (i + 1) (max xM (encX x).length)
        (max yM (encY y).length) with ⟨xs, ys, r⟩
      rw [hgo] at hj
      simp only [List.length_cons] at hj
      have hcond : (i + 1) * (max xM (encX x).length + max yM (encY y).length) ≤ b := by
        simpa [budgetOk] using hb
      cases j with
      | zero =>
        simpa [runningMax, srcLens, trgLens] using hcond
      | succ j' =>
        have hj' : j' < xs.length := by omega
        have hrec := ih (i + 1) (max xM (encX x).length) (max yM (encY y).length) j'
          (by rw [hgo]; exact hj')
        have hx : max xM (runningMax (srcLens encX ((x, y) :: rest)) (j' + 1)) =
            max (max xM (encX x).length) (runningMax (srcLens encX rest) j') := by
          simp only [srcLens, List.map_cons, runningMax, List.take_succ_cons, List.foldl_cons]
          rw [foldl_max_shift]
          simp [Nat.max_assoc]
        have hy : max yM (runningMax (trgLens encY ((x, y) :: rest)) (j' + 1)) =
            max (max yM (encY y).length) (runningMax (trgLens encY rest) j') := by
          simp only [trgLens, List.map_cons, runningMax, List.take_succ_cons, List.foldl_cons]
          rw [foldl_max_shift]
          simp [Nat.max_assoc]
        rw [hx, hy]
        have : i + (j' + 1) + 1 = (i + 1) + j' + 1 := by omega
        rw [this]
        exact hrec
    · simp [hb] at hj

/-- If the loop stopped before exhausting the batch, the first rejected
sample really violated the acceptance test at its position. -/
theorem collateGo_reject_cond {α : Type} (encX encY : α → List Tok) (b : Nat) :
    ∀ (ps : List (α × α)) (i xM yM : Nat),
      (collateGo encX encY (some b) ps i xM yM).1.length < ps.length →
      ¬ ((i + (collateGo encX encY (some b) ps i xM yM).1.length + 1) *
          (max xM (runningMax (srcLens encX ps) (collateGo encX encY (some b) ps i xM yM).1.length) +
           max yM (runningMax (trgLens encY ps) (collateGo encX encY (some b) ps i xM yM).1.length)) ≤ b) := by
  intro ps
  induction ps with
  | nil => intro i xM yM h; simp [collateGo] at h
  | cons hd rest ih =>
    intro i xM yM h
    obtain ⟨x, y⟩ := hd
    simp only [collateGo] at h ⊢
    by_cases hb : budgetOk (some b) i (max xM (encX x).length) (max yM (encY y).length)
    · simp only [hb, if_true] at h ⊢
      rcases hgo : collateGo encX encY (some b) rest (i + 1) (max xM (encX x).length)
        (max yM (encY y).length) with ⟨xs, ys, r⟩
      rw [hgo] at h
      simp only [List.length_cons] at h ⊢
      have hlt : xs.length < rest.length := by simpa using h
      have hrec := ih (i + 1) (max xM (encX x).length) (max yM (encY y).length)
      rw [hgo] at hrec
      have hrec' := hrec hlt
      have hx : max xM (runningMax (srcLens encX ((x, y) :: rest)) (xs.length + 1)) =
          max (max xM (encX x).length) (runningMax (srcLens encX rest) xs.length) := by
        simp only [srcLens, List.map_cons, runningMax, List.take_succ_cons, List.foldl_cons]
        rw [foldl_max_shift]
        simp [Nat.max_assoc]
      have hy : max yM (runningMax (trgLens encY ((x, y) :: rest)) (xs.length + 1)) =
          max (max yM (encY y).length) (runningMax (trgLens encY rest) xs.length) := by
        simp only [trgLens, List.map_cons, runningMax, List.take_succ_cons, List.foldl_cons]
        rw [foldl_max_shift]
        simp [Nat.max_assoc]
      rw [hx, hy]
      have : i + (xs.length + 1) + 1 = (i + 1) + xs.length + 1 := by omega
      rw [this]
      exact hrec'
    · simp only [hb, if_false]
      have hcond : ¬ ((i + 1) * (max xM (encX x).length + max yM (encY y).length) ≤ b) := by
        simpa [budgetOk] using hb
      simpa [runningMax, srcLens, trgLens] using hcond

/-- Successful padding: the input was nonempty, the output has one row per
input row, and every output row is padded to the maximum input row length. -/
theorem padSeq_some {pad : Tok} {xs xp : List (List Tok)}
    (h : padSeq pad xs = some xp) :
    xs ≠ [] ∧ xp.length = xs.length ∧
    totalElems xp = xs.length * ((xs.map List.length).foldl max 0) := by
  cases xs with
  | nil => simp [padSeq] at h
  | cons s t =>
    simp only [padSeq, Option.some.injEq] at h
    subst h
    refine ⟨by simp, by simp, ?_⟩
    set M := ((s :: t).map List.length).foldl max 0 with hM
    have hrow : ∀ row ∈ (s :: t).map (fun q => q ++ List.replicate (M - q.length) pad),
        row.length = M := by
      intro row hrow
      obtain ⟨q, hq, rfl⟩ := List.mem_map.mp hrow
      have hle : q.length ≤ M := mem_le_foldl_max (List.mem_map_of_mem List.length hq)
      simp only [List.length_append, List.length_replicate]
      omega
    unfold totalElems
    rw [sum_map_const _ _ M hrow]
    simp

/-- Claim C5: for every input batch and every finite token budget `b`,
`collate_fn` accepts sample `i` (0-indexed, in input order) only if
`(i+1)*(running_src_max + running_trg_max) ≤ b`; it stops at the first
rejection (the accepted rows are the encodings of a prefix of the batch, and
the first sample past that prefix violates the test); its output satisfies
`total_elements(src_array) + total_elements(trg_array) ≤ b` and
`accepted_count ≤ len(batch)`, with both padded arrays having
`accepted_count` as leading dimension; with no budget all samples are
accepted. -/
theorem C5_collate_budget {α : Type} (encX encY : α → List Tok)
    (srcPad trgPad : Tok) (batch : List (α × α)) (b : Nat) :
    acceptedCount encX encY batch (some b) ≤ batch.length
    ∧ (collateGo encX encY (some b) batch 0 0 0).1 =
        (batch.take (acceptedCount encX encY batch (some b))).map (fun p => encX p.1)
    ∧ (∀ j, j < acceptedCount encX encY batch (some b) →
        (j + 1) * (runningMax (srcLens encX batch) j +
                   runningMax (trgLens encY batch) j) ≤ b)
    ∧ (acceptedCount encX encY batch (some b) < batch.length →
        ¬ ((acceptedCount encX encY batch (some b) + 1) *
            (runningMax (srcLens encX batch) (acceptedCount encX encY batch (some b)) +
             runningMax (trgLens encY batch) (acceptedCount encX encY batch (some b))) ≤ b))
    ∧ (∀ out, collate_fn encX encY srcPad trgPad batch (some b) = some out →
        out.xPadded.length = acceptedCount encX encY batch (some b) ∧
        out.yPadded.length = acceptedCount encX encY batch (some b) ∧
        totalElems out.xPadded + totalElems out.yPadded ≤ b)
    ∧ acceptedCount encX encY batch none = batch.length := by
  have hpre := collateGo_accepted_rows encX encY (some b) batch 0 0 0
  have hlen : acceptedCount encX encY batch (some b) ≤ batch.length := by
    have h1 := congrArg List.length hpre.1
    simp only [List.length_map, List.length_take] at h1
    unfold acceptedCount
    omega
  have haccept : ∀ j, j < acceptedCount encX encY batch (some b) →
      (j + 1) * (runningMax (srcLens encX batch) j +
                 runningMax (trgLens encY batch) j) ≤ b := by
    intro j hj
    have := collateGo_accept_cond encX encY b batch 0 0 0 j hj
    simpa using this
  refine ⟨hlen, hpre.1, haccept, ?_, ?_, ?_⟩
  · intro hlt
    have := collateGo_reject_cond encX encY b batch 0 0 0 hlt
    simpa using this
  · intro out hout
    unfold collate_fn at hout
    rcases hgo : collateGo encX encY (some b) batch 0 0 0 with ⟨xs, ys, r⟩
    rw [hgo] at hout
    dsimp only at hout
    rcases hx : padSeq srcPad xs with _ | xp
    · rw [hx] at hout; simp at hout
    rcases hy : padSeq trgPad ys with _ | yp
    · rw [hx, hy] at hout; simp at hout
    rw [hx, hy] at hout
    simp only [Option.some.injEq] at hout
    subst hout
    obtain ⟨hxne, hxlen, hxtot⟩ := padSeq_some hx
    obtain ⟨hyne, hylen, hytot⟩ := padSeq_some hy
    have hK : acceptedCount encX encY batch (some b) = xs.length := by
      unfold acceptedCount; rw [hgo]
    have hKy : ys.length = xs.length := by
      have := hpre.2.2; rw [hgo] at this; exact this
    have hK1 : 1 ≤ xs.length := by
      cases xs with
      | nil => exact absurd rfl hxne
      | cons _ _ => simp
    refine ⟨by rw [hxlen, hK], by rw [hylen, hKy, hK], ?_⟩
    have h1 := hpre.1
    rw [hgo] at h1
    dsimp only at h1
    have h2 := hpre.2.1
    rw [hgo] at h2
    dsimp only at h2
    have hxmap : xs.map List.length = (srcLens encX batch).take xs.length := by
      conv_lhs => rw [h1]
      rw [List.map_map, List.map_take]
      rfl
    have hymap : ys.map List.length = (trgLens encY batch).take xs.length := by
      conv_lhs => rw [h2]
      rw [List.map_map, List.map_take]
      rfl
    have hMx : (xs.map List.length).foldl max 0 =
        runningMax (srcLens encX batch) (xs.length - 1) := by
      rw [hxmap]
      unfold runningMax
      congr 1
      congr 1
      omega
    have hMy : (ys.map List.length).foldl max 0 =
        runningMax (trgLens encY batch) (xs.length - 1) := by
      rw [hymap]
      unfold runningMax
      congr 1
      congr 1
      omega
    have hbound := haccept (xs.length - 1) (by rw [hK]; omega)
    rw [hxtot, hytot, hMx, hMy, hKy]
    have heq : xs.length - 1 + 1 = xs.length := by omega
    rw [heq] at hbound
    calc xs.length * runningMax (srcLens encX batch) (xs.length - 1) +
          xs.length * runningMax (trgLens encY batch) (xs.length - 1)
        = xs.length * (runningMax (srcLens encX batch) (xs.length - 1) +
            runningMax (trgLens encY batch) (xs.length - 1)) := by ring
      _ ≤ b := hbound
  · unfold acceptedCount
    exact collateGo_none_all encX encY batch 0 0 0

/-- Concrete instance of C5: three samples with source lengths 1, 2, 3 and
target lengths 1, 1, 3 under budget 12; the first two samples are accepted,
the third is rejected, and the padded output satisfies the budget bound. -/
theorem C5_collate_budget_witness :
    acceptedCount (fun n : Nat => List.replicate n 0) (fun n : Nat => List.replicate n 0)
      [(1, 1), (2, 1), (3, 3)] (some 12) = 2
    ∧ totalElems ([[0, 9], [0, 0]] : List (List Tok)) + totalElems ([[0], [0]] : List (List Tok)) ≤ 12 := by
  refine ⟨by decide, ?_⟩
  have h := (C5_collate_budget (fun n : Nat => List.replicate n 0)
    (fun n : Nat => List.replicate n 0) 9 7 [(1, 1), (2, 1), (3, 3)] 12).2.2.2.2.1
    ⟨[[0, 9], [0, 0]], [[0], [0]]⟩ (by decide)
  exact h.2.2

/-- Claim C9: if the very first sample of a non-empty batch already exceeds
the finite token budget, `collate_fn` does not return an empty pair of
arrays: it reaches `pad_sequence` with zero accepted sequences and fails
(`none` here), and any successful return has at least one accepted sample. -/
theorem C9_no_empty_success {α : Type} (encX encY : α → List Tok)
    (srcPad trgPad : Tok) (x y : α) (rest : List (α × α)) (b : Nat)
    (h : b < (encX x).length + (encY y).length) :
    collate_fn encX encY srcPad trgPad ((x, y) :: rest) (some b) = none
    ∧ (∀ (batch : List (α × α)) (B : Option Nat) out,
        collate_fn encX encY srcPad trgPad batch B = some out →
        1 ≤ acceptedCount encX encY batch B) := by
  constructor
  · have hb : budgetOk (some b) 0 (encX x).length (encY y).length = false := by
      simp only [budgetOk, decide_eq_false_iff_not]
      omega
    simp [collate_fn, collateGo, hb, padSeq]
  · intro batch B out hout
    unfold collate_fn at hout
    rcases hgo : collateGo encX encY B batch 0 0 0 with ⟨xs, ys, r⟩
    rw [hgo] at hout
    dsimp only at hout
    rcases hx : padSeq srcPad xs with _ | xp
    · rw [hx] at hout; simp at hout
    rcases hy : padSeq trgPad ys with _ | yp
    · rw [hx, hy] at hout; simp at hout
    obtain ⟨hxne, _, _⟩ := padSeq_some hx
    unfold acceptedCount
    rw [hgo]
    cases xs with
    | nil => exact absurd rfl hxne
    | cons _ _ => simp

/-- Concrete instance of C9: a single sample of combined encoded length 2
under budget 1 makes `collate_fn` fail, and the successful run on the same
sample under budget 2 has one accepted sample. -/
theorem C9_no_empty_success_witness :
    collate_fn (fun n : Nat => List.replicate n 0) (fun n : Nat => List.replicate n 0)
      9 7 [(1, 1)] (some 1) = none
    ∧ 1 ≤ acceptedCount (fun n : Nat => List.replicate n 0)
        (fun n : Nat => List.replicate n 0) [(1, 1)] (some 2) := by
  constructor
  · exact (C9_no_empty_success (fun n : Nat => List.replicate n 0)
      (fun n : Nat => List.replicate n 0) 9 7 1 1 [] 1 (by decide)).1
  · exact (C9_no_empty_success (fun n : Nat => List.replicate n 0)
      (fun n : Nat => List.replicate n 0) 9 7 1 1 [] 1 (by decide)).2
      [(1, 1)] (some 2) ⟨[[0]], [[0]]⟩ (by decide)

/-- Claim C6, evaluated at a failing input: for a batch of 3 pairs, each of
combined encoded length 2, under token budget 2, a single sample is accepted
(so the true dropped fraction is `1 - 1/3 = 2/3`), but the warning printed by
the source reports `1 - ((i+1)/len(batch)) = 1 - 2/3 = 1/3`, because `i` is
the index of the first REJECTED sample, which already equals the accepted
count; the code's own message ("Dropping ... of the batch") thus reports a
value that is not the dropped fraction the claim (and the message) promise. -/
theorem C6_drop_warning_eval :
    acceptedCount (fun _ : Unit => ([0] : List Tok)) (fun _ => [0])
      [((), ()), ((), ()), ((), ())] (some 2) = 1
    ∧ collateWarn (fun _ : Unit => ([0] : List Tok)) (fun _ => [0])
        [((), ()), ((), ()), ((), ())] (some 2) = some (dropRatioReported 1 3)
    ∧ dropRatioReported 1 3 = (1 : ℚ) / 3
    ∧ droppedFraction 1 3 = (2 : ℚ) / 3
    ∧ dropRatioReported 1 3 ≠ droppedFraction 1 3 := by
  refine ⟨by decide, ?_, ?_, ?_, ?_⟩
  · have hrej : (collateGo (fun _ : Unit => ([0] : List Tok)) (fun _ => [0]) (some 2)
        [((), ()), ((), ()), ((), ())] 0 0 0).2.2 = some 1 := by decide
    simp [collateWarn, hrej]
  · unfold dropRatioReported; norm_num
  · unfold droppedFraction; norm_num
  · unfold dropRatioReported droppedFraction; norm_num

/-!
Part 2 models the metric-support machinery of `BaseTranslator`
(src/autonmt/toolkits/base.py): `_check_supported_metrics` (lines 30-46),
the `TOOL2METRICS` / `METRICS2TOOL` tables (lines 60-67),
`_get_metrics_tool` (lines 92-103) and the per-tool dispatch of `score`
(lines 433-463).  Python strings are modelled as `List Char` (so slicing
`x[3:]` is `List.drop 3` and `startswith` is `List.isPrefixOf`), Python sets
as `Finset (List Char)`.
-/

abbrev Str := List Char

/-- Model of the class table `TOOL2METRICS` (base.py lines 60-66; the
huggingface entry is commented out in the source). -/
def TOOL2METRICS : List (Str × List Str) :=
  [("sacrebleu".toList, ["bleu".toList, "chrf".toList, "ter".toList]),
   ("bertscore".toList, ["bertscore".toList]),
   ("comet".toList, ["comet".toList]),
   ("beer".toList, ["beer".toList]),
   ("fairseq".toList, ["fairseq".toList])]

/-- Model of `METRICS2TOOL` (base.py line 67): the metric-to-tool mapping
derived from `TOOL2METRICS`. -/
def METRICS2TOOL (m : Str) : Option Str :=
  (TOOL2METRICS.find? (fun p => decide (m ∈ p.2))).map (fun p => p.1)

/-- The key set of `METRICS2TOOL`, passed to `_check_supported_metrics` as
`metrics_supported` by both `score` (line 401) and `parse_metrics`
(line 476). -/
def supportedMetrics : Finset Str :=
  ((TOOL2METRICS.map (fun p => p.2)).flatten).toFinset

/-- Model of `m.startswith("hg_")`. -/
def hgTest (m : Str) : Bool := ("hg_".toList).isPrefixOf m

/-- Model of `_check_supported_metrics` (base.py lines 30-46).  Returns the
valid subset (the function's return value) and the non-valid subset that the
warning on line 42 names.  The source also prints a skip notice when the two
input sets coincide, i.e. when the valid subset is empty. -/
def checkSupportedMetrics (metrics supported : Finset Str) : Finset Str × Finset Str :=
  let valid := (metrics ∩ supported) ∪ metrics.filter (fun m => hgTest m = true)
  (valid, metrics \ valid)

/-- Model of `_get_metrics_tool` (base.py lines 92-103): metrics whose name
starts with `hg_` route to the huggingface tool, the rest through
`METRICS2TOOL`; metrics with no tool are silently dropped. -/
def getMetricsTool (metrics : Finset Str) : Finset Str :=
  metrics.biUnion (fun m =>
    if hgTest m then {"huggingface".toList}
    else
      match METRICS2TOOL m with
      | some t => {t}
      | none => ∅)

/-- Lookup of `self.TOOL2METRICS[t]` as a finite set. -/
def toolMetrics (t : Str) : Finset Str :=
  (((TOOL2METRICS.find? (fun p => decide (p.1 = t))).map (fun p => p.2)).getD []).toFinset

/-- Model of `hg_metrics = {x[3:] for x in metrics if x.startswith("hg_")}`
(base.py line 458): the metric names passed to the huggingface scoring
sub-routine, with the three-character prefix removed. -/
def hgStripped (metrics : Finset Str) : Finset Str :=
  (metrics.filter (fun m => hgTest m = true)).image (fun m => m.drop 3)

/-!
Part 3 models the per-unit artifact state machine of
`BaseTranslator.translate` (base.py lines 319-390) and
`BaseTranslator.score` (lines 393-465).  The filesystem is an association
list from (beam-by-split unit, file name) to file data (a write timestamp
and a line count); file existence is the only coordination state the source
consults.  The external engine hooks (`self._translate`, the text pipeline
and the `compute_*` scoring collaborators live outside this repository's
sources) are modelled as abstract parameters: the decode+detokenize chain
for a unit produces `hypLines` lines of hypothesis, the staged (and
optionally filter-derived) raw files have `srcLines`/`refLines` lines per
split.
-/

/-- One beam-by-split unit of translate/score work. -/
structure UnitId where
  split : Str
  beam : Nat
deriving DecidableEq, Repr

/-- A key of the artifact store: a unit together with a file name inside the
unit's directory. -/
structure PathKey where
  unit : UnitId
  fname : Str
deriving DecidableEq, Repr

/-- Persisted data of one artifact: the timestamp of its last write and its
line count. -/
structure FileData where
  stamp : Nat
  lines : Nat
deriving DecidableEq, Repr

/-- The artifact store: an association list over path keys. -/
abbrev FS := List (PathKey × FileData)

/-- Read an artifact. -/
def fsGet (fs : FS) (k : PathKey) : Option FileData :=
  (fs.find? (fun e => decide (e.1 = k))).map (fun e => e.2)

/-- Write an artifact (replacing any previous entry for the same key). -/
def fsSet (fs : FS) (k : PathKey) (d : FileData) : FS :=
  (k, d) :: fs.filter (fun e => decide (e.1 ≠ k))

def hypTokName : Str := "hyp.tok".toList
def hypTxtName : Str := "hyp.txt".toList
def srcTxtName : Str := "src.txt".toList
def refTxtName : Str := "ref.txt".toList

/-- Score file name per tool, from the `TOOL_PARSERS` table (base.py lines
53-59): fairseq scores are a txt file, every other tool writes json. -/
def scoreFname (t : Str) : Str :=
  if t = "fairseq".toList then t ++ "_scores.txt".toList
  else t ++ "_scores.json".toList

/-- Abstract external collaborators of one translate run: line counts of the
decoded hypothesis per unit and of the staged raw source/reference text per
split filter. -/
structure Engine where
  hypLines : UnitId → Nat
  srcLines : Str → Nat
  refLines : Str → Nat

/-- The hard error of `translate` (base.py lines 385-388). -/
inductive TrError
  | lineMismatch (nref nhyp : Nat)
deriving DecidableEq, Repr

/-- Model of one iteration of the beam-by-split loop of `translate`
(base.py lines 322-390).  The completion marker is `hyp.tok` (line 332): if
it exists and no overwrite is forced, the unit is skipped wholesale.
Otherwise the engine decode hook writes `hyp.tok`, the raw source/reference
text is copied or filter-derived into `src.txt`/`ref.txt`, the tokenized
output is detokenized into `hyp.txt`, and the line counts of `ref.txt` and
`hyp.txt` are compared, raising on mismatch (lines 382-388).  The returned
number counts decode invocations. -/
def translateUnit (eng : Engine) (force : Bool) (clock : Nat) (fs : FS)
    (u : UnitId) : Except TrError (FS × Nat) :=
  if force || (fsGet fs ⟨u, hypTokName⟩).isNone then
    let fs1 := fsSet fs ⟨u, hypTokName⟩ ⟨clock, eng.hypLines u⟩
    let fs2 := fsSet fs1 ⟨u, srcTxtName⟩ ⟨clock, eng.srcLines u.split⟩
    let fs3 := fsSet fs2 ⟨u, refTxtName⟩ ⟨clock, eng.refLines u.split⟩
    let fs4 := fsSet fs3 ⟨u, hypTxtName⟩ ⟨clock, eng.hypLines u⟩
    if eng.refLines u.split ≠ eng.hypLines u then
      Except.error (TrError.lineMismatch (eng.refLines u.split) (eng.hypLines u))
    else
      Except.ok (fs4, 1)
  else
    Except.ok (fs, 0)

/-- The beam-by-split Cartesian product `translate` and `score` iterate over
(splits outer, beams inner, in the order given). -/
def unitsOf (splits : List Str) (beams : List Nat) : List UnitId :=
  splits.flatMap (fun s => beams.map (fun b => ⟨s, b⟩))

/-- Model of the full double loop of `translate`: units are processed in
order, an error aborts the remaining units (the exception propagates). -/
def translateAll (eng : Engine) (force : Bool) (clock : Nat) :
    List UnitId → FS → Except TrError (FS × Nat)
  | [], fs => Except.ok (fs, 0)
  | u :: us, fs =>
    match translateUnit eng force clock fs u with
    | Except.error e => Except.error e
    | Except.ok (fs', w) =>
      match translateAll eng force clock us fs' with
      | Except.error e => Except.error e
      | Except.ok (fs'', w') => Except.ok (fs'', w + w')

/-- The hard error of `score` (base.py lines 429-431). -/
inductive ScError
  | missingFiles
deriving DecidableEq, Repr

/-- Modelled from the spec: the `compute_*` scoring collaborators live in
`autonmt.bundle.metrics`, which is not part of these sources; per the error
taxonomy, per-tool scoring failures are unit-local, caught and logged, and do
not abort sibling tools.  A sub-routine invocation is therefore modelled as:
the tool runs (recorded in the log), and writes its score file unless that
tool fails on this invocation (`fails t = true`). -/
def scoreToolBlock (t : Str) (applicable : Bool) (force : Bool)
    (fails : Str → Bool) (clock : Nat) (u : UnitId) (st : FS × List Str) :
    FS × List Str :=
  if applicable then
    if force || (fsGet st.1 ⟨u, scoreFname t⟩).isNone then
      if fails t then (st.1, st.2 ++ [t])
      else (fsSet st.1 ⟨u, scoreFname t⟩ ⟨clock, 0⟩, st.2 ++ [t])
    else st
  else st

/-- The per-tool applicability tests of `score`, in source order (base.py
lines 433-463): one intersection test per tool of `TOOL2METRICS` that
`score` dispatches on (beer has no block in `score`), and, last, the
huggingface block guarded by the non-emptiness of the stripped `hg_` metric
names. -/
def scoreToolList (metrics : Finset Str) : List (Str × Bool) :=
  [(("sacrebleu".toList), decide (toolMetrics ("sacrebleu".toList) ∩ metrics ≠ ∅)),
   (("bertscore".toList), decide (toolMetrics ("bertscore".toList) ∩ metrics ≠ ∅)),
   (("comet".toList), decide (toolMetrics ("comet".toList) ∩ metrics ≠ ∅)),
   (("fairseq".toList), decide (toolMetrics ("fairseq".toList) ∩ metrics ≠ ∅)),
   (("huggingface".toList), decide (hgStripped metrics ≠ ∅))]

/-- The chain of per-tool blocks of one `score` unit. -/
def runTools (ts : List (Str × Bool)) (force : Bool) (fails : Str → Bool)
    (clock : Nat) (u : UnitId) (st : FS × List Str) : FS × List Str :=
  ts.foldl (fun st tb => scoreToolBlock tb.1 tb.2 force fails clock u st) st

/-- Model of one iteration of the beam-by-split loop of `score` (base.py
lines 410-465): the unit requires `src.txt`, `ref.txt` and `hyp.txt` to
exist (IOError otherwise, lines 429-431), then runs one block per tool in
source order, each block skippable when its score file already exists and no
overwrite is forced.  Returns the store and the tools whose sub-routine was
invoked. -/
def scoreUnit (metrics : Finset Str) (force : Bool) (fails : Str → Bool)
    (clock : Nat) (fs : FS) (u : UnitId) : Except ScError (FS × List Str) :=
  if (fsGet fs ⟨u, srcTxtName⟩).isNone || (fsGet fs ⟨u, refTxtName⟩).isNone ||
      (fsGet fs ⟨u, hypTxtName⟩).isNone then
    Except.error ScError.missingFiles
  else
    Except.ok (runTools (scoreToolList metrics) force fails clock u (fs, []))

/-- The three text artifacts `score` requires for a unit. -/
def filesPresent (fs : FS) (u : UnitId) : Prop :=
  (fsGet fs ⟨u, srcTxtName⟩).isSome ∧ (fsGet fs ⟨u, refTxtName⟩).isSome ∧
    (fsGet fs ⟨u, hypTxtName⟩).isSome

/-- Outcome of a whole `score` call: skipped without work when no requested
metric is valid (base.py lines 401-403), or done with a log of the invoked
(unit, tool) sub-routines. -/
inductive ScoreOutcome
  | skipped
  | done (fs : FS) (ran : List (UnitId × Str))
deriving DecidableEq, Repr

/-- Model of the unit loop of `score`. -/
def scoreUnits (metrics : Finset Str) (force : Bool) (fails : Str → Bool)
    (clock : Nat) : List UnitId → FS → Except ScError (FS × List (UnitId × Str))
  | [], fs => Except.ok (fs, [])
  | u :: us, fs =>
    match scoreUnit metrics force fails clock fs u with
    | Except.error e => Except.error e
    | Except.ok (fs', ran) =>
      match scoreUnits metrics force fails clock us fs' with
      | Except.error e => Except.error e
      | Except.ok (fs'', ran') => Except.ok (fs'', ran.map (fun t => (u, t)) ++ ran')

/-- Model of `BaseTranslator.score` (base.py lines 393-465): check metric
support first and return without scoring when no requested metric is valid,
otherwise run every beam-by-split unit. -/
def score (metrics : Finset Str) (force : Bool) (fails : Str → Bool)
    (clock : Nat) (units : List UnitId) (fs : FS) : Except ScError ScoreOutcome :=
  if (checkSupportedMetrics metrics supportedMetrics).1 = ∅ then
    Except.ok ScoreOutcome.skipped
  else
    match scoreUnits metrics force fails clock units fs with
    | Except.error e => Except.error e
    | Except.ok (fs', ran) => Except.ok (ScoreOutcome.done fs' ran)

/-- Errors of the translate-then-score pipeline inside `predict`
(base.py lines 185-194). -/
inductive PipeError
  | tr (e : TrError)
  | sc (e : ScError)
deriving DecidableEq, Repr

/-- Model of the translate-then-score sequencing of `predict`: `score` for
an evaluation dataset only runs after `translate` for it returned without
raising. -/
def translateThenScore (eng : Engine) (metrics : Finset Str) (force : Bool)
    (fails : Str → Bool) (clock : Nat) (units : List UnitId) (fs : FS) :
    Except PipeError ScoreOutcome :=
  match translateAll eng force clock units fs with
  | Except.error e => Except.error (PipeError.tr e)
  | Except.ok (fs1, _) =>
    match score metrics force fails clock units fs1 with
    | Except.error e => Except.error (PipeError.sc e)
    | Except.ok out => Except.ok out

/-! Basic lemmas about the artifact store. -/

theorem fsGet_fsSet_same (fs : FS) (k : PathKey) (d : FileData) :
    fsGet (fsSet fs k d) k = some d := by
  simp [fsGet, fsSet, List.find?]

theorem fsGet_fsSet_ne (fs : FS) (k k' : PathKey) (d : FileData) (h : k' ≠ k) :
    fsGet (fsSet fs k d) k' = fsGet fs k' := by
  simp only [fsGet, fsSet]
  have hk : (decide ((k, d).1 = k')) = false := by
    simp only [decide_eq_false_iff_not]
    exact fun hc => h hc.symm
  rw [List.find?]
  simp only [hk, Bool.false_eq_true, if_false]
  congr 1
  induction fs with
  | nil => simp
  | cons e t ih =>
    by_cases he : e.1 = k
    · have h1 : decide (e.1 ≠ k) = false := by simp [he]
      have h2 : decide (e.1 = k') = false := by
        simp only [decide_eq_false_iff_not]
        rw [he]; exact fun hc => h hc.symm
      rw [List.filter_cons, h1]
      simp only [Bool.false_eq_true, if_false, List.find?]
      rw [h2]
      simpa using ih
    · have h1 : decide (e.1 ≠ k) = true := by simpa using he
      rw [List.filter_cons, h1]
      simp only [if_true, List.find?]
      by_cases h2 : e.1 = k'
      · simp [h2]
      · have h2f : decide (e.1 = k') = false := by simpa using h2
        rw [h2f]
        simpa using ih

theorem fsGet_fsSet_isSome (fs : FS) (k k' : PathKey) (d : FileData)
    (h : (fsGet fs k').isSome) : (fsGet (fsSet fs k d) k').isSome := by
  by_cases hk : k' = k
  · subst hk; rw [fsGet_fsSet_same]; rfl
  · rw [fsGet_fsSet_ne fs k k' d hk]; exact h

theorem pathKey_ne_of_fname (u : UnitId) {f1 f2 : Str} (h : f1 ≠ f2) :
    (⟨u, f1⟩ : PathKey) ≠ ⟨u, f2⟩ := by
  intro hc
  exact h (congrArg PathKey.fname hc)

/-! Lemmas about the translate loop. -/

/-- A successful `translateUnit` leaves the unit's completion marker
in place. -/
theorem translateUnit_marker {eng : Engine} {force : Bool} {clock : Nat}
    {fs fs' : FS} {u : UnitId} {w : Nat}
    (h : translateUnit eng force clock fs u = Except.ok (fs', w)) :
    (fsGet fs' ⟨u, hypTokName⟩).isSome := by
  unfold translateUnit at h
  by_cases hc : (force || (fsGet fs ⟨u, hypTokName⟩).isNone) = true
  · rw [if_pos hc] at h
    by_cases hm : eng.refLines u.split ≠ eng.hypLines u
    · rw [if_pos hm] at h; cases h
    · rw [if_neg hm] at h
      simp only [Except.ok.injEq, Prod.mk.injEq] at h
      obtain ⟨hfs, -⟩ := h
      subst hfs
      rw [fsGet_fsSet_ne _ _ _ _ (pathKey_ne_of_fname u (by decide)),
          fsGet_fsSet_ne _ _ _ _ (pathKey_ne_of_fname u (by decide)),
          fsGet_fsSet_ne _ _ _ _ (pathKey_ne_of_fname u (by decide)),
          fsGet_fsSet_same]
      rfl
  · rw [if_neg hc] at h
    simp only [Except.ok.injEq, Prod.mk.injEq] at h
    obtain ⟨hfs, -⟩ := h
    subst hfs
    simp only [Bool.or_eq_true, not_or, Bool.not_eq_true, Option.isNone_eq_false_iff] at hc
    exact hc.2

/-- A successful `translateUnit` never removes an existing artifact. -/
theorem translateUnit_mono {eng : Engine} {force : Bool} {clock : Nat}
    {fs fs' : FS} {u : UnitId} {w : Nat}
    (h : translateUnit eng force clock fs u = Except.ok (fs', w))
    (k : PathKey) (hk : (fsGet fs k).isSome) : (fsGet fs' k).isSome := by
  unfold translateUnit at h
  by_cases hc : (force || (fsGet fs ⟨u, hypTokName⟩).isNone) = true
  · rw [if_pos hc] at h
    by_cases hm : eng.refLines u.split ≠ eng.hypLines u
    · rw [if_pos hm] at h; cases h
    · rw [if_neg hm] at h
      simp only [Except.ok.injEq, Prod.mk.injEq] at h
      obtain ⟨hfs, -⟩ := h
      subst hfs
      exact fsGet_fsSet_isSome _ _ _ _ (fsGet_fsSet_isSome _ _ _ _
        (fsGet_fsSet_isSome _ _ _ _ (fsGet_fsSet_isSome _ _ _ _ hk)))
  · rw [if_neg hc] at h
    simp only [Except.ok.injEq, Prod.mk.injEq] at h
    obtain ⟨hfs, -⟩ := h
    subst hfs
    exact hk

/-- When the completion marker exists and no overwrite is forced, the unit is
skipped: the store is untouched and no decode work happens. -/
theorem translateUnit_skip {eng : Engine} {clock : Nat} {fs : FS} {u : UnitId}
    (h : (fsGet fs ⟨u, hypTokName⟩).isSome) :
    translateUnit eng false clock fs u = Except.ok (fs, 0) := by
  unfold translateUnit
  have hc : (false || (fsGet fs ⟨u, hypTokName⟩).isNone) = false := by
    simp only [Bool.false_or, Option.isNone_eq_false_iff]
    exact h
  rw [hc]
  simp

/-- A successful translate run never removes an existing artifact. -/
theorem translateAll_mono {eng : Engine} {force : Bool} {clock : Nat} :
    ∀ {units : List UnitId} {fs fs' : FS} {w : Nat},
      translateAll eng force clock units fs = Except.ok (fs', w) →
      ∀ k, (fsGet fs k).isSome → (fsGet fs' k).isSome := by
  intro units
  induction units with
  | nil =>
    intro fs fs' w h k hk
    unfold translateAll at h
    simp only [Except.ok.injEq, Prod.mk.injEq] at h
    obtain ⟨hfs, -⟩ := h
    subst hfs
    exact hk
  | cons v us ih =>
    intro fs fs' w h k hk
    unfold translateAll at h
    rcases h1 : translateUnit eng force clock fs v with e | ⟨fs1, w1⟩
    · rw [h1] at h; cases h
    · rw [h1] at h
      dsimp only at h
      rcases h2 : translateAll eng force clock us fs1 with e | ⟨fs2, w2⟩
      · rw [h2] at h; dsimp only at h; cases h
      · rw [h2] at h
        dsimp only at h
        simp only [Except.ok.injEq, Prod.mk.injEq] at h
        obtain ⟨hfs, -⟩ := h
        subst hfs
        exact ih h2 k (translateUnit_mono h1 k hk)

/-- After a successful translate run, every processed unit has its completion
marker. -/
theorem translateAll_markers {eng : Engine} {force : Bool} {clock : Nat} :
    ∀ {units : List UnitId} {fs fs' : FS} {w : Nat},
      translateAll eng force clock units fs = Except.ok (fs', w) →
      ∀ u ∈ units, (fsGet fs' ⟨u, hypTokName⟩).isSome := by
  intro units
  induction units with
  | nil => intro fs fs' w h u hu; cases hu
  | cons v us ih =>
    intro fs fs' w h u hu
    unfold translateAll at h
    rcases h1 : translateUnit eng force clock fs v with e | ⟨fs1, w1⟩
    · rw [h1] at h; cases h
    · rw [h1] at h
      dsimp only at h
      rcases h2 : translateAll eng force clock us fs1 with e | ⟨fs2, w2⟩
      · rw [h2] at h; dsimp only at h; cases h
      · rw [h2] at h
        dsimp only at h
        simp only [Except.ok.injEq, Prod.mk.injEq] at h
        obtain ⟨hfs, -⟩ := h
        subst hfs
        rcases List.mem_cons.mp hu with rfl | hmem
        · exact translateAll_mono h2 _ (translateUnit_marker h1)
        · exact ih h2 u hmem

/-! Lemmas about the score tool blocks. -/

theorem scoreToolBlock_notapp {t : Str} {force : Bool} {fails : Str → Bool}
    {clock : Nat} {u : UnitId} {st : FS × List Str} :
    scoreToolBlock t false force fails clock u st = st := by
  simp [scoreToolBlock]

theorem scoreToolBlock_mono {t : Str} {app force : Bool} {fails : Str → Bool}
    {clock : Nat} {u : UnitId} {st : FS × List Str} (k : PathKey)
    (hk : (fsGet st.1 k).isSome) :
    (fsGet (scoreToolBlock t app force fails clock u st).1 k).isSome := by
  unfold scoreToolBlock
  by_cases happ : app <;> simp only [happ, if_true, if_false, Bool.false_eq_true]
  · by_cases hc : (force || (fsGet st.1 ⟨u, scoreFname t⟩).isNone) = true <;>
      simp only [hc, if_true, if_false, Bool.false_eq_true]
    · by_cases hf : fails t <;> simp only [hf, if_true, if_false, Bool.false_eq_true]
      · exact hk
      · exact fsGet_fsSet_isSome _ _ _ _ hk
    · exact hk
  · exact hk

theorem scoreToolBlock_writes_only {t : Str} {app force : Bool}
    {fails : Str → Bool} {clock : Nat} {u : UnitId} {st : FS × List Str}
    (k : PathKey) (hk : k ≠ ⟨u, scoreFname t⟩) :
    fsGet (scoreToolBlock t app force fails clock u st).1 k = fsGet st.1 k := by
  unfold scoreToolBlock
  by_cases happ : app <;> simp only [happ, if_true, if_false, Bool.false_eq_true]
  by_cases hc : (force || (fsGet st.1 ⟨u, scoreFname t⟩).isNone) = true <;>
    simp only [hc, if_true, if_false, Bool.false_eq_true]
  by_cases hf : fails t <;> simp only [hf, if_true, if_false, Bool.false_eq_true]
  exact fsGet_fsSet_ne _ _ _ _ hk

/-- After the block of a non-failing applicable tool, the tool's score file
exists (either it already did, or it was just written). -/
theorem scoreToolBlock_self {t : Str} {force : Bool} {fails : Str → Bool}
    {clock : Nat} {u : UnitId} {st : FS × List Str} (hnf : fails t = false) :
    (fsGet (scoreToolBlock t true force fails clock u st).1 ⟨u, scoreFname t⟩).isSome := by
  unfold scoreToolBlock
  simp only [if_true]
  by_cases hc : (force || (fsGet st.1 ⟨u, scoreFname t⟩).isNone) = true <;>
    simp only [hc, if_true, if_false, Bool.false_eq_true]
  · rw [hnf]
    simp only [Bool.false_eq_true, if_false]
    rw [fsGet_fsSet_same]
    rfl
  · simp only [Bool.or_eq_true, not_or, Bool.not_eq_true,
      Option.isNone_eq_false_iff] at hc
    exact hc.2

/-- A still-cached applicable tool is skipped without touching anything. -/
theorem scoreToolBlock_skip {t : Str} {app : Bool} {fails : Str → Bool}
    {clock : Nat} {u : UnitId} {st : FS × List Str}
    (h : app = true → (fsGet st.1 ⟨u, scoreFname t⟩).isSome) :
    scoreToolBlock t app false fails clock u st = st := by
  unfold scoreToolBlock
  by_cases happ : app <;> simp only [happ, if_true, if_false, Bool.false_eq_true]
  have hc : (false || (fsGet st.1 ⟨u, scoreFname t⟩).isNone) = false := by
    simp only [Bool.false_or, Option.isNone_eq_false_iff]
    exact h happ
  rw [hc]
  simp

theorem scoreToolBlock_ran_mono {t : Str} {app force : Bool}
    {fails : Str → Bool} {clock : Nat} {u : UnitId} {st : FS × List Str}
    {x : Str} (hx : x ∈ st.2) :
    x ∈ (scoreToolBlock t app force fails clock u st).2 := by
  unfold scoreToolBlock
  by_cases happ : app <;> simp only [happ, if_true, if_false, Bool.false_eq_true]
  by_cases hc : (force || (fsGet st.1 ⟨u, scoreFname t⟩).isNone) = true <;>
    simp only [hc, if_true, if_false, Bool.false_eq_true]
  · by_cases hf : fails t <;> simp only [hf, if_true, if_false, Bool.false_eq_true] <;>
      exact List.mem_append_left _ hx
  · exact hx
  · exact hx

/-- An applicable tool whose score file is absent gets its sub-routine
invoked, whether or not it (or any other tool) fails. -/
theorem scoreToolBlock_runs {t : Str} {force : Bool} {fails : Str → Bool}
    {clock : Nat} {u : UnitId} {st : FS × List Str}
    (hnone : force = true ∨ fsGet st.1 ⟨u, scoreFname t⟩ = none) :
    t ∈ (scoreToolBlock t true force fails clock u st).2 := by
  unfold scoreToolBlock
  simp only [if_true]
  have hc : (force || (fsGet st.1 ⟨u, scoreFname t⟩).isNone) = true := by
    rcases hnone with h | h
    · simp [h]
    · simp [h]
  rw [hc]
  simp only [if_true]
  by_cases hf : fails t <;> simp only [hf, if_true, if_false, Bool.false_eq_true] <;>
    exact List.mem_append_right _ (List.mem_singleton_self t)

/-! Lemmas about the chain of tool blocks. -/

theorem runTools_cons {force : Bool} {fails : Str → Bool} {clock : Nat}
    {u : UnitId} (tb : Str × Bool) (rest : List (Str × Bool)) (st : FS × List Str) :
    runTools (tb :: rest) force fails clock u st =
      runTools rest force fails clock u (scoreToolBlock tb.1 tb.2 force fails clock u st) := rfl

theorem runTools_mono (force : Bool) (fails : Str → Bool) (clock : Nat)
    (u : UnitId) :
    ∀ (ts : List (Str × Bool)) (st : FS × List Str) (k : PathKey),
      (fsGet st.1 k).isSome → (fsGet (runTools ts force fails clock u st).1 k).isSome := by
  intro ts
  induction ts with
  | nil => intro st k hk; exact hk
  | cons tb rest ih =>
    intro st k hk
    exact ih _ k (scoreToolBlock_mono k hk)

theorem runTools_writes_only (force : Bool) (fails : Str → Bool) (clock : Nat)
    (u : UnitId) :
    ∀ (ts : List (Str × Bool)) (st : FS × List Str) (k : PathKey),
      (∀ tb ∈ ts, k ≠ (⟨u, scoreFname tb.1⟩ : PathKey)) →
      fsGet (runTools ts force fails clock u st).1 k = fsGet st.1 k := by
  intro ts
  induction ts with
  | nil => intro st k _; rfl
  | cons tb rest ih =>
    intro st k hk
    rw [runTools_cons]
    rw [ih _ k (fun tb' htb' => hk tb' (List.mem_cons_of_mem tb htb'))]
    exact scoreToolBlock_writes_only k (hk tb (List.mem_cons_self tb rest))

theorem runTools_ran_mono (force : Bool) (fails : Str → Bool) (clock : Nat)
    (u : UnitId) :
    ∀ (ts : List (Str × Bool)) (st : FS × List Str) (x : Str),
      x ∈ st.2 → x ∈ (runTools ts force fails clock u st).2 := by
  intro ts
  induction ts with
  | nil => intro st x hx; exact hx
  | cons tb rest ih =>
    intro st x hx
    exact ih _ x (scoreToolBlock_ran_mono hx)

/-- With no failing tool, the chain leaves every applicable tool's score file
present. -/
theorem runTools_complete (force : Bool) (fails : Str → Bool) (clock : Nat)
    (u : UnitId) :
    ∀ (ts : List (Str × Bool)) (st : FS × List Str),
      (∀ tb ∈ ts, fails tb.1 = false) →
      ∀ tb ∈ ts, tb.2 = true →
        (fsGet (runTools ts force fails clock u st).1 ⟨u, scoreFname tb.1⟩).isSome := by
  intro ts
  induction ts with
  | nil => intro st _ tb htb; cases htb
  | cons hd rest ih =>
    intro st hnf tb htb happ
    rcases List.mem_cons.mp htb with heq | hmem
    · subst heq
      rw [runTools_cons]
      refine runTools_mono force fails clock u rest _ _ ?_
      obtain ⟨tn, tapp⟩ := tb
      simp only at happ
      subst happ
      exact scoreToolBlock_self (hnf (tn, true) (List.mem_cons_self _ _))
    · rw [runTools_cons]
      exact ih _ (fun tb' htb' => hnf tb' (List.mem_cons_of_mem hd htb')) tb hmem happ

/-- When every applicable tool's score file already exists and no overwrite
is forced, the whole chain is a no-op. -/
theorem runTools_skip (fails : Str → Bool) (clock : Nat) (u : UnitId) :
    ∀ (ts : List (Str × Bool)) (st : FS × List Str),
      (∀ tb ∈ ts, tb.2 = true → (fsGet st.1 ⟨u, scoreFname tb.1⟩).isSome) →
      runTools ts false fails clock u st = st := by
  intro ts
  induction ts with
  | nil => intro st _; rfl
  | cons tb rest ih =>
    intro st h
    rw [runTools_cons]
    rw [scoreToolBlock_skip (h tb (List.mem_cons_self tb rest))]
    exact ih st (fun tb' htb' => h tb' (List.mem_cons_of_mem tb htb'))

/-- An applicable tool whose score file is absent at the start of the chain
is invoked, regardless of which tools fail, provided no other tool in the
chain shares its score file name. -/
theorem runTools_runs (force : Bool) (fails : Str → Bool) (clock : Nat)
    (u : UnitId) (t : Str) :
    ∀ (ts : List (Str × Bool)) (st : FS × List Str),
      (t, true) ∈ ts →
      (force = true ∨ fsGet st.1 ⟨u, scoreFname t⟩ = none) →
      (∀ tb ∈ ts, tb.1 ≠ t → scoreFname tb.1 ≠ scoreFname t) →
      t ∈ (runTools ts force fails clock u st).2 := by
  intro ts
  induction ts with
  | nil => intro st hmem _ _; cases hmem
  | cons tb rest ih =>
    intro st hmem hnone hfname
    rw [runTools_cons]
    rcases List.mem_cons.mp hmem with heq | hmem'
    · rw [← heq]
      exact runTools_ran_mono force fails clock u rest _ t (scoreToolBlock_runs hnone)
    · by_cases htb1 : tb.1 = t
      · by_cases htb2 : tb.2 = true
        · have htbe : tb = (t, true) := by
            cases tb
            simp only [Prod.mk.injEq]
            exact ⟨htb1, htb2⟩
          rw [htbe]
          exact runTools_ran_mono force fails clock u rest _ t (scoreToolBlock_runs hnone)
        · have htbe : tb = (t, false) := by
            cases tb
            simp only [Prod.mk.injEq]
            refine ⟨htb1, ?_⟩
            simpa using htb2
          rw [htbe, scoreToolBlock_notapp]
          exact ih st hmem' hnone
            (fun tb' htb' => hfname tb' (List.mem_cons_of_mem tb htb'))
      · have hpres : force = true ∨
            fsGet (scoreToolBlock tb.1 tb.2 force fails clock u st).1
              ⟨u, scoreFname t⟩ = none := by
          rcases hnone with h | h
          · exact Or.inl h
          · refine Or.inr ?_
            rw [scoreToolBlock_writes_only _ (pathKey_ne_of_fname u
              (fun hc => hfname tb (List.mem_cons_self tb rest) htb1 hc.symm))]
            exact h
        exact ih _ hmem' hpres
          (fun tb' htb' => hfname tb' (List.mem_cons_of_mem tb htb'))

/-- When every unit already has its completion marker and no overwrite is
forced, the whole translate loop is a no-op: the store is returned unchanged
and zero decode invocations happen. -/
theorem translateAll_skip {eng : Engine} {clock : Nat} :
    ∀ {units : List UnitId} {fs : FS},
      (∀ u ∈ units, (fsGet fs ⟨u, hypTokName⟩).isSome) →
      translateAll eng false clock units fs = Except.ok (fs, 0) := by
  intro units
  induction units with
  | nil => intro fs _; rfl
  | cons v us ih =>
    intro fs h
    unfold translateAll
    rw [translateUnit_skip (h v (List.mem_cons_self v us))]
    dsimp only
    rw [ih (fun u hu => h u (List.mem_cons_of_mem v hu))]

/-! Lemmas about the score unit loop. -/

/-- Inversion of a successful `scoreUnit`: the three text artifacts were
present and the result is the tool chain's output. -/
theorem scoreUnit_ok_inv {metrics : Finset Str} {force : Bool}
    {fails : Str → Bool} {clock : Nat} {fs fs' : FS} {u : UnitId}
    {ran : List Str}
    (h : scoreUnit metrics force fails clock fs u = Except.ok (fs', ran)) :
    filesPresent fs u ∧
    (fs', ran) = runTools (scoreToolList metrics) force fails clock u (fs, []) := by
  unfold scoreUnit at h
  by_cases hc : ((fsGet fs ⟨u, srcTxtName⟩).isNone ||
      (fsGet fs ⟨u, refTxtName⟩).isNone || (fsGet fs ⟨u, hypTxtName⟩).isNone) = true
  · rw [if_pos hc] at h; cases h
  · rw [if_neg hc] at h
    simp only [Except.ok.injEq] at h
    refine ⟨?_, h.symm⟩
    simp only [Bool.or_eq_true, not_or, Bool.not_eq_true,
      Option.isNone_eq_false_iff] at hc
    exact ⟨hc.1.1, hc.1.2, hc.2⟩

/-- When the three text artifacts are present, `scoreUnit` succeeds with the
tool chain's output. -/
theorem scoreUnit_eq_of_present {metrics : Finset Str} {force : Bool}
    {fails : Str → Bool} {clock : Nat} {fs : FS} {u : UnitId}
    (h : filesPresent fs u) :
    scoreUnit metrics force fails clock fs u =
      Except.ok (runTools (scoreToolList metrics) force fails clock u (fs, [])) := by
  unfold scoreUnit
  have hc : ((fsGet fs ⟨u, srcTxtName⟩).isNone ||
      (fsGet fs ⟨u, refTxtName⟩).isNone || (fsGet fs ⟨u, hypTxtName⟩).isNone) = false := by
    obtain ⟨h1, h2, h3⟩ := h
    simp only [Bool.or_eq_false_iff, Option.isNone_eq_false_iff]
    exact ⟨⟨h1, h2⟩, h3⟩
  rw [hc]
  simp

/-- A successful score loop never removes an existing artifact. -/
theorem scoreUnits_mono {metrics : Finset Str} {force : Bool}
    {fails : Str → Bool} {clock : Nat} :
    ∀ {units : List UnitId} {fs fs' : FS} {ran : List (UnitId × Str)},
      scoreUnits metrics force fails clock units fs = Except.ok (fs', ran) →
      ∀ k, (fsGet fs k).isSome → (fsGet fs' k).isSome := by
  intro units
  induction units with
  | nil =>
    intro fs fs' ran h k hk
    unfold scoreUnits at h
    simp only [Except.ok.injEq, Prod.mk.injEq] at h
    obtain ⟨hfs, -⟩ := h
    subst hfs
    exact hk
  | cons v us ih =>
    intro fs fs' ran h k hk
    unfold scoreUnits at h
    rcases h1 : scoreUnit metrics force fails clock fs v with e | ⟨fs1, ran1⟩
    · rw [h1] at h; cases h
    · rw [h1] at h
      dsimp only at h
      rcases h2 : scoreUnits metrics force fails clock us fs1 with e | ⟨fs2, ran2⟩
      · rw [h2] at h; dsimp only at h; cases h
      · rw [h2] at h
        dsimp only at h
        simp only [Except.ok.injEq, Prod.mk.injEq] at h
        obtain ⟨hfs, -⟩ := h
        subst hfs
        obtain ⟨-, heq⟩ := scoreUnit_ok_inv h1
        have hk1 : (fsGet fs1 k).isSome := by
          have := runTools_mono force fails clock v (scoreToolList metrics) (fs, []) k hk
          rw [← heq] at this
          exact this
        exact ih h2 k hk1

/-- After a successful score loop, every processed unit still has its three
text artifacts. -/
theorem scoreUnits_files {metrics : Finset Str} {force : Bool}
    {fails : Str → Bool} {clock : Nat} :
    ∀ {units : List UnitId} {fs fs' : FS} {ran : List (UnitId × Str)},
      scoreUnits metrics force fails clock units fs = Except.ok (fs', ran) →
      ∀ u ∈ units, filesPresent fs' u := by
  intro units
  induction units with
  | nil => intro fs fs' ran h u hu; cases hu
  | cons v us ih =>
    intro fs fs' ran h u hu
    unfold scoreUnits at h
    rcases h1 : scoreUnit metrics force fails clock fs v with e | ⟨fs1, ran1⟩
    · rw [h1] at h; cases h
    · rw [h1] at h
      dsimp only at h
      rcases h2 : scoreUnits metrics force fails clock us fs1 with e | ⟨fs2, ran2⟩
      · rw [h2] at h; dsimp only at h; cases h
      · rw [h2] at h
        dsimp only at h
        simp only [Except.ok.injEq, Prod.mk.injEq] at h
        obtain ⟨hfs, -⟩ := h
        subst hfs
        obtain ⟨hpres, heq⟩ := scoreUnit_ok_inv h1
        rcases List.mem_cons.mp hu with rfl | hmem
        · have hpres1 : filesPresent fs1 u := by
            obtain ⟨p1, p2, p3⟩ := hpres
            refine ⟨?_, ?_, ?_⟩ <;>
              [have := runTools_mono force fails clock u (scoreToolList metrics) (fs, []) _ p1;
               have := runTools_mono force fails clock u (scoreToolList metrics) (fs, []) _ p2;
               have := runTools_mono force fails clock u (scoreToolList metrics) (fs, []) _ p3] <;>
              (rw [← heq] at this; exact this)
          obtain ⟨p1, p2, p3⟩ := hpres1
          exact ⟨scoreUnits_mono h2 _ p1, scoreUnits_mono h2 _ p2,
            scoreUnits_mono h2 _ p3⟩
        · exact ih h2 u hmem

/-- With no failing tool, a successful score loop leaves every applicable
tool's score file present for every processed unit. -/
theorem scoreUnits_complete {metrics : Finset Str} {force : Bool}
    {fails : Str → Bool} {clock : Nat} (hnf : ∀ t, fails t = false) :
    ∀ {units : List UnitId} {fs fs' : FS} {ran : List (UnitId × Str)},
      scoreUnits metrics force fails clock units fs = Except.ok (fs', ran) →
      ∀ u ∈ units, ∀ tb ∈ scoreToolList metrics, tb.2 = true →
        (fsGet fs' ⟨u, scoreFname tb.1⟩).isSome := by
  intro units
  induction units with
  | nil => intro fs fs' ran h u hu; cases hu
  | cons v us ih =>
    intro fs fs' ran h u hu tb htb happ
    unfold scoreUnits at h
    rcases h1 : scoreUnit metrics force fails clock fs v with e | ⟨fs1, ran1⟩
    · rw [h1] at h; cases h
    · rw [h1] at h
      dsimp only at h
      rcases h2 : scoreUnits metrics force fails clock us fs1 with e | ⟨fs2, ran2⟩
      · rw [h2] at h; dsimp only at h; cases h
      · rw [h2] at h
        dsimp only at h
        simp only [Except.ok.injEq, Prod.mk.injEq] at h
        obtain ⟨hfs, -⟩ := h
        subst hfs
        obtain ⟨-, heq⟩ := scoreUnit_ok_inv h1
        rcases List.mem_cons.mp hu with rfl | hmem
        · have h1p : (fsGet fs1 ⟨u, scoreFname tb.1⟩).isSome := by
            have := runTools_complete force fails clock u (scoreToolList metrics) (fs, [])
              (fun tb' _ => hnf tb'.1) tb htb happ
            rw [← heq] at this
            exact this
          exact scoreUnits_mono h2 _ h1p
        · exact ih h2 u hmem tb htb happ

/-- When every unit's text artifacts and every applicable tool's score file
already exist and no overwrite is forced, the whole score loop is a no-op:
the store is returned unchanged and no sub-routine is invoked. -/
theorem scoreUnits_skip {metrics : Finset Str} {fails : Str → Bool}
    {clock : Nat} :
    ∀ {units : List UnitId} {fs : FS},
      (∀ u ∈ units, filesPresent fs u) →
      (∀ u ∈ units, ∀ tb ∈ scoreToolList metrics, tb.2 = true →
        (fsGet fs ⟨u, scoreFname tb.1⟩).isSome) →
      scoreUnits metrics false fails clock units fs = Except.ok (fs, []) := by
  intro units
  induction units with
  | nil => intro fs _ _; rfl
  | cons v us ih =>
    intro fs hp hs
    unfold scoreUnits
    rw [scoreUnit_eq_of_present (hp v (List.mem_cons_self v us))]
    rw [runTools_skip fails clock v (scoreToolList metrics) (fs, [])
      (fun tb htb happ => hs v (List.mem_cons_self v us) tb htb happ)]
    dsimp only
    rw [ih (fun u hu => hp u (List.mem_cons_of_mem v hu))
      (fun u hu => hs u (List.mem_cons_of_mem v hu))]
    rfl

/-- Names of the tools `score` dispatches on, independent of the metric
set. -/
theorem scoreToolList_names (metrics : Finset Str) :
    (scoreToolList metrics).map Prod.fst =
      [("sacrebleu".toList), ("bertscore".toList), ("comet".toList),
       ("fairseq".toList), ("huggingface".toList)] := rfl

/-- The five tools of `score` have pairwise distinct score file names. -/
theorem scoreFname_inj5 :
    ∀ n1 ∈ [("sacrebleu".toList), ("bertscore".toList), ("comet".toList),
        ("fairseq".toList), ("huggingface".toList)],
      ∀ n2 ∈ [("sacrebleu".toList), ("bertscore".toList), ("comet".toList),
          ("fairseq".toList), ("huggingface".toList)],
        n1 ≠ n2 → scoreFname n1 ≠ scoreFname n2 := by decide

/-- Claim C2: invoking translate or score a second time with identical
arguments and `force_overwrite=false` performs no additional decode or score
work: after a successful run, a rerun of the translate loop skips every unit
(each completion marker `hyp.tok` exists), returns the store bit-for-bit
unchanged (all timestamps included) and performs zero decode invocations;
after a successful failure-free score run, a rerun returns the store
unchanged with an empty invocation log; a skipped score call stays
skipped. -/
theorem C2_idempotent (eng : Engine) (metrics : Finset Str) (force : Bool)
    (fails : Str → Bool) (clock clock2 : Nat) (units : List UnitId)
    (fs fs1 fs2 : FS) (w : Nat) (ran : List (UnitId × Str)) :
    (translateAll eng force clock units fs = Except.ok (fs1, w) →
      translateAll eng false clock2 units fs1 = Except.ok (fs1, 0))
    ∧ ((∀ t, fails t = false) →
        score metrics force fails clock units fs =
          Except.ok (ScoreOutcome.done fs2 ran) →
        score metrics false fails clock2 units fs2 =
          Except.ok (ScoreOutcome.done fs2 []))
    ∧ (score metrics force fails clock units fs = Except.ok ScoreOutcome.skipped →
        score metrics false fails clock2 units fs = Except.ok ScoreOutcome.skipped) := by
  refine ⟨?_, ?_, ?_⟩
  · intro h
    exact translateAll_skip (translateAll_markers h)
  · intro hnf h
    unfold score at h ⊢
    by_cases hv : (checkSupportedMetrics metrics supportedMetrics).1 = ∅
    · rw [if_pos hv] at h
      cases h
    · rw [if_neg hv] at h ⊢
      rcases hsc : scoreUnits metrics force fails clock units fs with e | ⟨fs', ran'⟩
      · rw [hsc] at h; cases h
      · rw [hsc] at h
        dsimp only at h
        simp only [Except.ok.injEq, ScoreOutcome.done.injEq] at h
        obtain ⟨hfs, -⟩ := h
        subst hfs
        rw [scoreUnits_skip (scoreUnits_files hsc) (scoreUnits_complete hnf hsc)]
  · intro h
    unfold score at h ⊢
    by_cases hv : (checkSupportedMetrics metrics supportedMetrics).1 = ∅
    · rw [if_pos hv] at h ⊢
    · rw [if_neg hv] at h
      rcases hsc : scoreUnits metrics force fails clock units fs with e | ⟨fs', ran'⟩
      · rw [hsc] at h; cases h
      · rw [hsc] at h; dsimp only at h; cases h

def wEngine : Engine := ⟨fun _ => 2, fun _ => 2, fun _ => 2⟩

def wUnit : UnitId := ⟨[], 5⟩

def wFS1 : FS :=
  [(⟨wUnit, hypTxtName⟩, ⟨0, 2⟩), (⟨wUnit, refTxtName⟩, ⟨0, 2⟩),
   (⟨wUnit, srcTxtName⟩, ⟨0, 2⟩), (⟨wUnit, hypTokName⟩, ⟨0, 2⟩)]

def wFS2 : FS := (⟨wUnit, scoreFname ("sacrebleu".toList)⟩, ⟨1, 0⟩) :: wFS1

/-- Concrete instance of C2: one unit whose artifacts exist after a first
translate run and whose sacrebleu score file exists after a first score run;
the reruns change nothing and do no work. -/
theorem C2_idempotent_witness :
    translateAll wEngine false 7 [wUnit] wFS1 = Except.ok (wFS1, 0)
    ∧ score {("bleu".toList)} false (fun _ => false) 7 [wUnit] wFS2 =
        Except.ok (ScoreOutcome.done wFS2 []) := by
  constructor
  · exact (C2_idempotent wEngine ∅ false (fun _ => false) 0 7 [wUnit] [] wFS1 []
      1 []).1 (by rfl)
  · exact (C2_idempotent wEngine {("bleu".toList)} false (fun _ => false) 1 7
      [wUnit] wFS1 [] wFS2 0 [(wUnit, "sacrebleu".toList)]).2.1
      (fun _ => rfl) (by rfl)

/-- Claim C3: a beam-by-split unit that `translate` actually processes ends
with `hyp.txt` and `ref.txt` holding the same number of lines; a line-count
mismatch raises a hard error instead, and a translate error prevents the
score phase of `predict` from running at all. -/
theorem C3_line_counts (eng : Engine) (force : Bool) (clock : Nat) (fs : FS)
    (u : UnitId) :
    (∀ fs', translateUnit eng force clock fs u = Except.ok (fs', 1) →
      ∃ dh dr, fsGet fs' ⟨u, hypTxtName⟩ = some dh ∧
        fsGet fs' ⟨u, refTxtName⟩ = some dr ∧ dh.lines = dr.lines)
    ∧ ((force = true ∨ fsGet fs ⟨u, hypTokName⟩ = none) →
        eng.refLines u.split ≠ eng.hypLines u →
        translateUnit eng force clock fs u =
          Except.error (TrError.lineMismatch (eng.refLines u.split) (eng.hypLines u)))
    ∧ (∀ (metrics : Finset Str) (fails : Str → Bool) (units : List UnitId)
        (e : TrError),
        translateAll eng force clock units fs = Except.error e →
        translateThenScore eng metrics force fails clock units fs =
          Except.error (PipeError.tr e)) := by
  refine ⟨?_, ?_, ?_⟩
  · intro fs' h
    unfold translateUnit at h
    by_cases hc : (force || (fsGet fs ⟨u, hypTokName⟩).isNone) = true
    · rw [if_pos hc] at h
      by_cases hm : eng.refLines u.split ≠ eng.hypLines u
      · rw [if_pos hm] at h; cases h
      · rw [if_neg hm] at h
        simp only [Except.ok.injEq, Prod.mk.injEq] at h
        obtain ⟨hfs, -⟩ := h
        subst hfs
        push_neg at hm
        refine ⟨⟨clock, eng.hypLines u⟩, ⟨clock, eng.refLines u.split⟩,
          ?_, ?_, hm.symm⟩
        · rw [fsGet_fsSet_same]
        · rw [fsGet_fsSet_ne _ _ _ _ (pathKey_ne_of_fname u (by decide)),
            fsGet_fsSet_same]
    · rw [if_neg hc] at h
      simp only [Except.ok.injEq, Prod.mk.injEq] at h
      exact absurd h.2 (by decide)
  · intro hwork hm
    have hc : (force || (fsGet fs ⟨u, hypTokName⟩).isNone) = true := by
      rcases hwork with h | h
      · simp [h]
      · simp [h]
    unfold translateUnit
    rw [if_pos hc, if_pos hm]
  · intro metrics fails units e h
    unfold translateThenScore
    rw [h]

/-- Concrete instance of C3: an engine whose decode emits 3 lines against a
2-line reference makes the fresh unit fail with the line-count error. -/
theorem C3_line_counts_witness :
    translateUnit ⟨fun _ => 3, fun _ => 2, fun _ => 2⟩ false 0 [] wUnit =
      Except.error (TrError.lineMismatch 2 3) := by
  exact (C3_line_counts ⟨fun _ => 3, fun _ => 2, fun _ => 2⟩ false 0 [] wUnit).2.1
    (Or.inr (by decide)) (by decide)

/-- Claim C4: within one score invocation on a unit, a failure of one tool's
sub-routine does not prevent the sub-routines of the other requested tools
from running: whatever tool `t0` fails, every other applicable tool with no
cached score file still appears in the invocation log.  The `compute_*`
collaborators are not part of these sources; per the specification their
failures are caught and logged, which `scoreToolBlock` models. -/
theorem C4_tool_failure_isolated (metrics : Finset Str) (fails : Str → Bool)
    (t0 : Str) (_hfail : fails t0 = true) (clock : Nat) (fs fs' : FS)
    (u : UnitId) (ran : List Str)
    (hok : scoreUnit metrics false fails clock fs u = Except.ok (fs', ran)) :
    ∀ tb ∈ scoreToolList metrics, tb.2 = true → tb.1 ≠ t0 →
      fsGet fs ⟨u, scoreFname tb.1⟩ = none → tb.1 ∈ ran := by
  intro tb htb happ _ hnone
  obtain ⟨-, heq⟩ := scoreUnit_ok_inv hok
  have hmem : (tb.1, true) ∈ scoreToolList metrics := by
    have he : (tb.1, true) = tb := by
      cases tb
      simp only at happ
      rw [happ]
    rw [he]
    exact htb
  have hfn : ∀ tb' ∈ scoreToolList metrics, tb'.1 ≠ tb.1 →
      scoreFname tb'.1 ≠ scoreFname tb.1 := by
    intro tb' htb' hne'
    have m1 : tb'.1 ∈ (scoreToolList metrics).map Prod.fst :=
      List.mem_map_of_mem Prod.fst htb'
    have m2 : tb.1 ∈ (scoreToolList metrics).map Prod.fst :=
      List.mem_map_of_mem Prod.fst htb
    rw [scoreToolList_names] at m1 m2
    exact scoreFname_inj5 tb'.1 m1 tb.1 m2 hne'
  have := runTools_runs false fails clock u tb.1 (scoreToolList metrics)
    (fs, []) hmem (Or.inr hnone) hfn
  have hran : ran = (runTools (scoreToolList metrics) false fails clock u (fs, [])).2 :=
    congrArg Prod.snd heq
  rw [hran]
  exact this

def wFS4 : FS := (⟨wUnit, scoreFname ("bertscore".toList)⟩, ⟨1, 0⟩) :: wFS1

/-- Concrete instance of C4: with sacrebleu failing, the bertscore
sub-routine of the same unit still runs (and its score file is written). -/
theorem C4_tool_failure_isolated_witness :
    scoreUnit {("bleu".toList), ("bertscore".toList)} false
        (fun t => decide (t = "sacrebleu".toList)) 1 wFS1 wUnit =
      Except.ok (wFS4, [("sacrebleu".toList), ("bertscore".toList)])
    ∧ ("bertscore".toList) ∈ [("sacrebleu".toList), ("bertscore".toList)] := by
  constructor
  · rfl
  · exact C4_tool_failure_isolated {("bleu".toList), ("bertscore".toList)}
      (fun t => decide (t = "sacrebleu".toList)) ("sacrebleu".toList) (by decide)
      1 wFS1 wFS4 wUnit [("sacrebleu".toList), ("bertscore".toList)] (by rfl)
      (("bertscore".toList), true) (by decide) (by decide) (by decide) (by decide)

/-!
Part 4 models `BaseTranslator.parse_metrics` (base.py lines 468-536).  A
tool's score file on disk is abstracted by `FileRead`: absent, unreadable or
failing its parser (the per-tool `try`/`except` of lines 520-528 catches
this), or parsed into the known schema, a mapping
metric name -> sub-score name -> numeric value.  Python dicts are modelled
as insertion-ordered association lists (`dictInsert`, `updateAssoc`). -/

/-- What reading one tool's score file for one unit yields. -/
inductive FileRead
  | missing
  | malformed
  | parsed (scores : List (Str × List (Str × ℚ)))
deriving DecidableEq, Repr

/-- A flat beam-score record: key to numeric value, insertion-ordered. -/
abbrev ScoreMap := List (Str × ℚ)

/-- Model of `str.lower()` on the character list. -/
def toLowerChars (l : Str) : Str := l.map Char.toLower

/-- Leading-whitespace removal. -/
def trimLeftWS (l : Str) : Str := l.dropWhile Char.isWhitespace

/-- Trailing-whitespace removal. -/
def trimRightWS (l : Str) : Str := (l.reverse.dropWhile Char.isWhitespace).reverse

/-- Model of `str.strip()`. -/
def stripChars (l : Str) : Str := trimRightWS (trimLeftWS l)

/-- Model of the flat key `f"{m_tool}_{m_name}_{score_name}".lower().strip()`
built on base.py line 525. -/
def metricKey (tool m s : Str) : Str :=
  stripChars (toLowerChars (tool ++ ("_".toList) ++ m ++ ("_".toList) ++ s))

/-- Python dict insertion: replace in place when the key exists, append
otherwise. -/
def dictInsert (d : ScoreMap) (k : Str) (v : ℚ) : ScoreMap :=
  if d.any (fun e => decide (e.1 = k)) then
    d.map (fun e => if e.1 = k then (k, v) else e)
  else d ++ [(k, v)]

/-- Model of the two nested loops over a parsed score file (base.py lines
523-526): one flat insertion per (metric, sub-score) pair. -/
def flattenParsed (tool : Str) (sc : List (Str × List (Str × ℚ)))
    (acc : ScoreMap) : ScoreMap :=
  sc.foldl (fun a p =>
    p.2.foldl (fun a' q => dictInsert a' (metricKey tool p.1 q.1) q.2) a) acc

/-- Model of the per-tool loop building `beam_scores` (base.py lines
511-530): a missing file adds a warning and nothing else; a malformed file is
caught per tool and processing continues with the remaining tools.  Returns
the flat record, the tools warned as missing, and the tools whose parse
failed. -/
def beamScores (files : Str → FileRead) (tools : List Str) :
    ScoreMap × List Str × List Str :=
  tools.foldl (fun acc t =>
    match files t with
    | FileRead.parsed sc => (flattenParsed t sc acc.1, acc.2.1, acc.2.2)
    | FileRead.missing => (acc.1, acc.2.1 ++ [t], acc.2.2)
    | FileRead.malformed => (acc.1, acc.2.1, acc.2.2 ++ [t])) ([], [], [])

/-- A value of the `translations` mapping: either a flat beam record sitting
directly at the top level (empty split-filter name) or a split node holding a
beam-key to record mapping. -/
inductive TVal
  | leaf (scores : ScoreMap)
  | node (beams : List (Str × ScoreMap))
deriving DecidableEq, Repr

/-- Python `dict.update` with a single key. -/
def updateAssoc (d : List (Str × TVal)) (k : Str) (v : TVal) :
    List (Str × TVal) :=
  if d.any (fun e => decide (e.1 = k)) then
    d.map (fun e => if e.1 = k then (k, v) else e)
  else d ++ [(k, v)]

/-- The key `f"beam{str(beam)}"` of base.py line 533. -/
def beamKeyOf (beam : Nat) : Str := ("beam".toList) ++ (Nat.repr beam).toList

/-- Model of the `translations` assembly of `parse_metrics` (base.py lines
501-535): splits outer, beams inner, in the given order; for the empty split
name the beam record is merged at the top level, for a named split the
single-beam dict `{fn_name: {beam_key: record}}` replaces the split's entry
on every beam iteration. -/
def parseTranslations (files : Str → Nat → Str → FileRead) (tools : List Str)
    (splits : List Str) (beams : List Nat) : List (Str × TVal) :=
  splits.foldl (fun trs s =>
    beams.foldl (fun trs' beam =>
      let bs := (beamScores (files s beam) tools).1
      if s = [] then updateAssoc trs' (beamKeyOf beam) (TVal.leaf bs)
      else updateAssoc trs' s (TVal.node [(beamKeyOf beam, bs)])) trs) []

/-- Model of `parse_metrics` as far as the claims require: the support check
of lines 476-478 returns `None` (no record) when no requested metric is
valid, otherwise the assembled `translations` mapping is produced.  The tool
list stands for the iteration order of the `metric_tools` set. -/
def parse_metrics (metrics : Finset Str) (tools : List Str)
    (files : Str → Nat → Str → FileRead) (splits : List Str)
    (beams : List Nat) : Option (List (Str × TVal)) :=
  if (checkSupportedMetrics metrics supportedMetrics).1 = ∅ then none
  else some (parseTranslations files tools splits beams)

/-- Lookup in the `translations` mapping. -/
def lookupTV (d : List (Str × TVal)) (k : Str) : Option TVal :=
  (d.find? (fun e => decide (e.1 = k))).map (fun e => e.2)

/-! Lemmas about the metric support check. -/

theorem checkSupportedMetrics_fst (metrics supported : Finset Str) (m : Str) :
    m ∈ (checkSupportedMetrics metrics supported).1 ↔
      m ∈ metrics ∧ (m ∈ supported ∨ hgTest m = true) := by
  simp only [checkSupportedMetrics, Finset.mem_union, Finset.mem_inter,
    Finset.mem_filter]
  tauto

theorem valid_hgFilter (metrics : Finset Str) :
    ((checkSupportedMetrics metrics supportedMetrics).1).filter
        (fun m => hgTest m = true) =
      metrics.filter (fun m => hgTest m = true) := by
  ext m
  simp only [Finset.mem_filter, checkSupportedMetrics_fst]
  tauto

theorem hgStripped_valid (metrics : Finset Str) :
    hgStripped (checkSupportedMetrics metrics supportedMetrics).1 =
      hgStripped metrics := by
  unfold hgStripped
  rw [valid_hgFilter]

theorem toolMetrics_inter_valid (metrics : Finset Str) (t : Str)
    (hsub : toolMetrics t ⊆ supportedMetrics) :
    toolMetrics t ∩ (checkSupportedMetrics metrics supportedMetrics).1 =
      toolMetrics t ∩ metrics := by
  ext m
  simp only [Finset.mem_inter, checkSupportedMetrics_fst]
  constructor
  · rintro ⟨ht, hm, -⟩
    exact ⟨ht, hm⟩
  · rintro ⟨ht, hm⟩
    exact ⟨ht, hm, Or.inl (hsub ht)⟩

theorem check_valid_idem (metrics : Finset Str) :
    (checkSupportedMetrics (checkSupportedMetrics metrics supportedMetrics).1
      supportedMetrics).1 = (checkSupportedMetrics metrics supportedMetrics).1 := by
  ext m
  rw [checkSupportedMetrics_fst]
  constructor
  · rintro ⟨h, -⟩
    exact h
  · intro h
    refine ⟨h, ?_⟩
    rw [checkSupportedMetrics_fst] at h
    exact h.2

theorem scoreToolList_valid (metrics : Finset Str) :
    scoreToolList (checkSupportedMetrics metrics supportedMetrics).1 =
      scoreToolList metrics := by
  unfold scoreToolList
  rw [toolMetrics_inter_valid metrics ("sacrebleu".toList) (by decide),
      toolMetrics_inter_valid metrics ("bertscore".toList) (by decide),
      toolMetrics_inter_valid metrics ("comet".toList) (by decide),
      toolMetrics_inter_valid metrics ("fairseq".toList) (by decide),
      hgStripped_valid]

theorem scoreUnit_congr {m1 m2 : Finset Str} (h : scoreToolList m1 = scoreToolList m2)
    (force : Bool) (fails : Str → Bool) (clock : Nat) (fs : FS) (u : UnitId) :
    scoreUnit m1 force fails clock fs u = scoreUnit m2 force fails clock fs u := by
  unfold scoreUnit
  rw [h]

theorem scoreUnits_congr {m1 m2 : Finset Str} (h : scoreToolList m1 = scoreToolList m2)
    (force : Bool) (fails : Str → Bool) (clock : Nat) :
    ∀ (units : List UnitId) (fs : FS),
      scoreUnits m1 force fails clock units fs =
        scoreUnits m2 force fails clock units fs := by
  intro units
  induction units with
  | nil => intro fs; rfl
  | cons v us ih =>
    intro fs
    unfold scoreUnits
    rw [scoreUnit_congr h]
    simp only [ih]

/-- Claim C7: `score` and `parse_metrics` drop unsupported metric names (the
warning of `_check_supported_metrics` names exactly the requested metrics
that are neither supported nor `hg_`-prefixed), proceed with the valid
subset (running `score` on the raw set is the same computation as running it
on the valid subset), and when the whole requested set is unsupported the
operation is skipped outright — `score` returns the skipped outcome and
`parse_metrics` returns no record — with no error raised. -/
theorem C7_unsupported_dropped (metrics : Finset Str) (force : Bool)
    (fails : Str → Bool) (clock : Nat) (units : List UnitId) (fs : FS)
    (tools : List Str) (files : Str → Nat → Str → FileRead)
    (splits : List Str) (beams : List Nat) :
    (∀ m, m ∈ (checkSupportedMetrics metrics supportedMetrics).2 ↔
        m ∈ metrics ∧ m ∉ supportedMetrics ∧ hgTest m = false)
    ∧ (checkSupportedMetrics metrics supportedMetrics).1 =
        metrics \ (checkSupportedMetrics metrics supportedMetrics).2
    ∧ score metrics force fails clock units fs =
        score (checkSupportedMetrics metrics supportedMetrics).1 force fails
          clock units fs
    ∧ ((checkSupportedMetrics metrics supportedMetrics).1 = ∅ →
        score metrics force fails clock units fs = Except.ok ScoreOutcome.skipped
        ∧ parse_metrics metrics tools files splits beams = none) := by
  have h2 : ∀ m, m ∈ (checkSupportedMetrics metrics supportedMetrics).2 ↔
      m ∈ metrics ∧ m ∉ (checkSupportedMetrics metrics supportedMetrics).1 :=
    fun m => Finset.mem_sdiff
  have hchar : ∀ m, m ∈ (checkSupportedMetrics metrics supportedMetrics).2 ↔
      m ∈ metrics ∧ m ∉ supportedMetrics ∧ hgTest m = false := by
    intro m
    rw [h2 m]
    constructor
    · rintro ⟨hm, hn⟩
      rw [checkSupportedMetrics_fst] at hn
      refine ⟨hm, fun hs => hn ⟨hm, Or.inl hs⟩, ?_⟩
      by_cases hhg : hgTest m = true
      · exact absurd ⟨hm, Or.inr hhg⟩ hn
      · simpa using hhg
    · rintro ⟨hm, hs, hhg⟩
      refine ⟨hm, ?_⟩
      rw [checkSupportedMetrics_fst]
      rintro ⟨-, hv | hv⟩
      · exact hs hv
      · rw [hhg] at hv
        cases hv
  refine ⟨hchar, ?_, ?_, ?_⟩
  · ext m
    rw [Finset.mem_sdiff, h2 m]
    constructor
    · intro h
      exact ⟨((checkSupportedMetrics_fst metrics supportedMetrics m).mp h).1,
        fun hc => hc.2 h⟩
    · rintro ⟨hm, hn⟩
      by_contra hnv
      exact hn ⟨hm, hnv⟩
  · unfold score
    rw [check_valid_idem]
    by_cases hv : (checkSupportedMetrics metrics supportedMetrics).1 = ∅
    · rw [if_pos hv, if_pos hv]
    · rw [if_neg hv, if_neg hv,
        scoreUnits_congr (scoreToolList_valid metrics).symm]
  · intro hv
    constructor
    · unfold score
      rw [if_pos hv]
    · unfold parse_metrics
      rw [if_pos hv]

/-- Concrete instance of C7: the request consisting solely of an unsupported
metric name skips scoring and parsing without raising. -/
theorem C7_unsupported_dropped_witness :
    score {("unknown_metric".toList)} false (fun _ => false) 0 [] [] =
      Except.ok ScoreOutcome.skipped
    ∧ parse_metrics {("unknown_metric".toList)} []
        (fun _ _ _ => FileRead.missing) [[]] [] = none := by
  exact (C7_unsupported_dropped {("unknown_metric".toList)} false (fun _ => false)
    0 [] [] [] (fun _ _ _ => FileRead.missing) [[]] []).2.2.2 (by decide)

/-- Claim C10: an `hg_`-prefixed metric name is always accepted as valid by
the support check, whatever the supported-metric table; `_get_metrics_tool`
routes it to the huggingface tool; and in `score` it makes the huggingface
sub-routine run (when its score file is not cached) with the three-character
prefix stripped from the name — `m.drop 3` really is `m` minus the `hg_`
prefix. -/
theorem C10_hg_metrics (supported metrics : Finset Str) (m : Str)
    (hm : m ∈ metrics) (hp : hgTest m = true) (force : Bool)
    (fails : Str → Bool) (clock : Nat) (fs fs' : FS) (u : UnitId)
    (ran : List Str) :
    m ∈ (checkSupportedMetrics metrics supported).1
    ∧ ("huggingface".toList) ∈ getMetricsTool metrics
    ∧ m.drop 3 ∈ hgStripped metrics
    ∧ ("hg_".toList) ++ m.drop 3 = m
    ∧ (scoreUnit metrics force fails clock fs u = Except.ok (fs', ran) →
        fsGet fs ⟨u, scoreFname ("huggingface".toList)⟩ = none →
        ("huggingface".toList) ∈ ran) := by
  have hstr : m.drop 3 ∈ hgStripped metrics := by
    unfold hgStripped
    exact Finset.mem_image_of_mem _ (Finset.mem_filter.mpr ⟨hm, hp⟩)
  refine ⟨?_, ?_, hstr, ?_, ?_⟩
  · rw [checkSupportedMetrics_fst]
    exact ⟨hm, Or.inr hp⟩
  · unfold getMetricsTool
    rw [Finset.mem_biUnion]
    refine ⟨m, hm, ?_⟩
    rw [hp]
    simp
  · unfold hgTest at hp
    obtain ⟨r, hr⟩ := Iff.mp List.isPrefixOf_iff_prefix hp
    subst hr
    rw [show (3 : Nat) = ("hg_".toList).length from rfl, List.drop_left]
  · intro hok hnone
    obtain ⟨-, heq⟩ := scoreUnit_ok_inv hok
    have hc : decide (hgStripped metrics ≠ ∅) = true := by
      rw [decide_eq_true_eq]
      exact Finset.ne_empty_of_mem hstr
    have hmem : (("huggingface".toList), true) ∈ scoreToolList metrics := by
      rw [← hc]
      simp [scoreToolList]
    have hfn : ∀ tb' ∈ scoreToolList metrics,
        tb'.1 ≠ ("huggingface".toList) →
        scoreFname tb'.1 ≠ scoreFname ("huggingface".toList) := by
      intro tb' htb' hne'
      have m1 : tb'.1 ∈ (scoreToolList metrics).map Prod.fst :=
        List.mem_map_of_mem Prod.fst htb'
      rw [scoreToolList_names] at m1
      exact scoreFname_inj5 tb'.1 m1 ("huggingface".toList) (by decide) hne'
    have hrun := runTools_runs force fails clock u ("huggingface".toList)
      (scoreToolList metrics) (fs, []) hmem (Or.inr hnone) hfn
    have hran : ran =
        (runTools (scoreToolList metrics) force fails clock u (fs, [])).2 :=
      congrArg Prod.snd heq
    rw [hran]
    exact hrun

def wFS5 : FS := (⟨wUnit, scoreFname ("huggingface".toList)⟩, ⟨1, 0⟩) :: wFS1

/-- Concrete instance of C10: the metric `hg_bleu` (unknown to every tool
table) is valid even against an empty supported set, strips to `bleu`, and
makes the huggingface sub-routine run on a fresh unit. -/
theorem C10_hg_metrics_witness :
    ("hg_bleu".toList) ∈ (checkSupportedMetrics {("hg_bleu".toList)} ∅).1
    ∧ ("hg_".toList) ++ ("hg_bleu".toList).drop 3 = ("hg_bleu".toList)
    ∧ ("huggingface".toList) ∈ [("huggingface".toList)] := by
  have h := C10_hg_metrics ∅ {("hg_bleu".toList)} ("hg_bleu".toList) (by decide)
    (by decide) false (fun _ => false) 1 wFS1 wFS5 wUnit [("huggingface".toList)]
  exact ⟨h.1, h.2.2.2.1, h.2.2.2.2 (by rfl) (by decide)⟩

/-! Lemmas about the translations assembly. -/

theorem updateAssoc_notmem (d : List (Str × TVal)) (k : Str) (v : TVal)
    (h : ∀ e ∈ d, e.1 ≠ k) : updateAssoc d k v = d ++ [(k, v)] := by
  unfold updateAssoc
  have ha : d.any (fun e => decide (e.1 = k)) = false := by
    rw [List.any_eq_false]
    intro e he
    simpa using h e he
  rw [ha]
  simp

theorem updateAssoc_single (s : Str) (v0 v : TVal) :
    updateAssoc [(s, v0)] s v = [(s, v)] := by
  simp [updateAssoc]

/-- Folding the top-level beam updates over fresh, pairwise distinct beam
keys appends one entry per beam, in order. -/
theorem foldBeams_top (leafOf : Nat → TVal) :
    ∀ (beams : List Nat) (acc : List (Str × TVal)),
      (beams.map beamKeyOf).Nodup →
      (∀ b ∈ beams, ∀ e ∈ acc, e.1 ≠ beamKeyOf b) →
      beams.foldl (fun trs b => updateAssoc trs (beamKeyOf b) (leafOf b)) acc =
        acc ++ beams.map (fun b => (beamKeyOf b, leafOf b)) := by
  intro beams
  induction beams with
  | nil => intro acc _ _; simp
  | cons b rest ih =>
    intro acc hnd hfresh
    rw [List.foldl_cons,
      updateAssoc_notmem acc _ _ (hfresh b (List.mem_cons_self b rest))]
    rw [List.map_cons, List.nodup_cons] at hnd
    rw [ih (acc ++ [(beamKeyOf b, leafOf b)]) hnd.2 ?_]
    · simp
    · intro b' hb' e he
      rcases List.mem_append.mp he with he | he
      · exact hfresh b' (List.mem_cons_of_mem b hb') e he
      · rw [List.mem_singleton.mp he]
        intro hc
        dsimp only at hc
        exact hnd.1 (by rw [hc]; exact List.mem_map_of_mem beamKeyOf hb')

/-- Folding the named-split updates over a nonempty beam list leaves only
the entry of the last beam: each iteration replaces the split's entry. -/
theorem foldBeams_named (s : Str) (nodeOf : Nat → TVal) :
    ∀ (beams : List Nat) (hne : beams ≠ []) (v : TVal),
      beams.foldl (fun trs b => updateAssoc trs s (nodeOf b)) [(s, v)] =
        [(s, nodeOf (beams.getLast hne))] := by
  intro beams
  induction beams with
  | nil => intro hne; cases hne rfl
  | cons b rest ih =>
    intro hne v
    rw [List.foldl_cons, updateAssoc_single]
    by_cases hr : rest = []
    · subst hr
      simp [List.getLast]
    · rw [ih hr (nodeOf b), List.getLast_cons hr]

/-- Claim C1 as the code actually behaves (the amended claim): with the
default empty split-filter name, `parse_metrics` puts one distinct
`beam<k>` key per requested beam at the top level of `translations`, in
request order, each bound to that beam's own flattened scores (no
cross-contamination); under a NAMED split, however, each beam iteration
replaces the whole split entry, so only the last requested beam's record
survives under the split-name key. -/
theorem C1_translations_structure (files : Str → Nat → Str → FileRead)
    (tools : List Str) (beams : List Nat) (s : Str) (hs : s ≠ [])
    (hne : beams ≠ []) (hnd : (beams.map beamKeyOf).Nodup) :
    parseTranslations files tools [[]] beams =
      beams.map (fun b => (beamKeyOf b, TVal.leaf (beamScores (files [] b) tools).1))
    ∧ parseTranslations files tools [s] beams =
        [(s, TVal.node [(beamKeyOf (beams.getLast hne),
            (beamScores (files s (beams.getLast hne)) tools).1)])] := by
  constructor
  · unfold parseTranslations
    rw [List.foldl_cons, List.foldl_nil]
    exact foldBeams_top (fun b => TVal.leaf (beamScores (files [] b) tools).1)
      beams [] hnd (fun b _ e he => absurd he (List.not_mem_nil e))
  · unfold parseTranslations
    rw [List.foldl_cons, List.foldl_nil]
    have hstep : (fun (trs' : List (Str × TVal)) (beam : Nat) =>
        let bs := (beamScores (files s beam) tools).1
        if s = [] then updateAssoc trs' (beamKeyOf beam) (TVal.leaf bs)
        else updateAssoc trs' s (TVal.node [(beamKeyOf beam, bs)])) =
        fun trs' beam => updateAssoc trs' s
          (TVal.node [(beamKeyOf beam, (beamScores (files s beam) tools).1)]) := by
      funext trs' beam
      simp only [if_neg hs]
    rw [hstep]
    cases beams with
    | nil => cases hne rfl
    | cons b rest =>
      rw [List.foldl_cons,
        updateAssoc_notmem [] _ _ (fun e he => absurd he (List.not_mem_nil e)),
        List.nil_append]
      by_cases hr : rest = []
      · subst hr
        simp [List.getLast]
      · rw [foldBeams_named s _ rest hr, List.getLast_cons hr]

/-- Claim C1 as stated is false on the code: for a named split `s` with
requested beams `[5, 1]`, the returned `translations` mapping holds, under
the key `s`, a node containing ONLY the `beam1` record — the `beam5` entry
was overwritten, so the record does not contain one `beam<k>` key per
requested beam. -/
theorem C1_named_split_counterexample :
    parseTranslations (fun _ _ _ => FileRead.missing) [] [("s".toList)] [5, 1] =
      [(("s".toList), TVal.node [(beamKeyOf 1, [])])]
    ∧ lookupTV (parseTranslations (fun _ _ _ => FileRead.missing) []
        [("s".toList)] [5, 1]) ("s".toList) =
        some (TVal.node [(beamKeyOf 1, [])])
    ∧ beamKeyOf 5 ∉ [beamKeyOf 1] := by
  refine ⟨by decide, by decide, by decide⟩

/-- Concrete instance of the amended C1: with the default empty split name,
beams `[5, 1]` yield exactly the two top-level keys `beam5` and `beam1`; with
the named split `s`, only `beam1` survives under `s`. -/
theorem C1_translations_structure_witness :
    parseTranslations (fun _ _ _ => FileRead.missing) [] [[]] [5, 1] =
      [(beamKeyOf 5, TVal.leaf []), (beamKeyOf 1, TVal.leaf [])]
    ∧ parseTranslations (fun _ _ _ => FileRead.missing) [] [("s".toList)] [5, 1] =
        [(("s".toList), TVal.node [(beamKeyOf 1, [])])] := by
  have h := C1_translations_structure (fun _ _ _ => FileRead.missing) [] [5, 1]
    ("s".toList) (by decide) (by decide) (by decide)
  exact ⟨h.1.trans (by decide), h.2.trans (by decide)⟩

/-! Shape of the flat metric keys: for a well-formed tool name the key
always starts with the tool name and an underscore, which is what keeps keys
of different tools apart. -/

/-- A well-formed tool name: nonempty, free of whitespace, already
lower-case.  All six names of `TOOL_PARSERS` satisfy this. -/
def ToolWF (t : Str) : Prop :=
  t ≠ [] ∧ (∀ c ∈ t, c.isWhitespace = false) ∧ t.map Char.toLower = t

instance (t : Str) : Decidable (ToolWF t) := by
  unfold ToolWF
  infer_instance

/-- The six keys of the `TOOL_PARSERS` table (base.py lines 53-59). -/
def officialTools : List Str :=
  [("sacrebleu".toList), ("bertscore".toList), ("comet".toList),
   ("beer".toList), ("huggingface".toList), ("fairseq".toList)]

theorem trimRight_cons (a : Char) (l : Str) (h : a.isWhitespace = false) :
    trimRightWS (a :: l) = a :: trimRightWS l := by
  unfold trimRightWS
  rw [List.reverse_cons, List.dropWhile_append]
  by_cases he : (l.reverse.dropWhile Char.isWhitespace).isEmpty = true
  · rw [if_pos he]
    rw [List.isEmpty_iff.mp he]
    rw [List.dropWhile_cons, if_neg (by simp [h])]
    simp
  · rw [if_neg he]
    rw [List.reverse_append]
    simp

theorem trimRight_append_nonws (t : Str) (hw : ∀ c ∈ t, c.isWhitespace = false)
    (a : Char) (ha : a.isWhitespace = false) (z : Str) :
    trimRightWS (t ++ a :: z) = t ++ a :: trimRightWS z := by
  induction t with
  | nil =>
    rw [List.nil_append, List.nil_append]
    exact trimRight_cons a z ha
  | cons c t' ih =>
    rw [List.cons_append, trimRight_cons c _ (hw c (List.mem_cons_self c t')),
      ih (fun c' hc' => hw c' (List.mem_cons_of_mem c hc')), List.cons_append]

theorem trimLeft_cons (a : Char) (l : Str) (h : a.isWhitespace = false) :
    trimLeftWS (a :: l) = a :: l := by
  unfold trimLeftWS
  rw [List.dropWhile_cons, if_neg (by simp [h])]

/-- Structure of a flat metric key: tool name, underscore, rest. -/
theorem metricKey_eq {t : Str} (w : ToolWF t) (m s : Str) :
    metricKey t m s = t ++ '_' :: trimRightWS (toLowerChars (m ++ '_' :: s)) := by
  obtain ⟨hne, hw, hlow⟩ := w
  unfold metricKey stripChars
  have hl : toLowerChars (t ++ ("_".toList) ++ m ++ ("_".toList) ++ s) =
      t ++ '_' :: toLowerChars (m ++ '_' :: s) := by
    unfold toLowerChars
    rw [List.map_append, List.map_append, List.map_append, List.map_append, hlow]
    simp [List.append_assoc, show Char.toLower '_' = '_' from rfl]
  rw [hl]
  cases ht : t with
  | nil => exact absurd ht hne
  | cons c t' =>
    rw [← ht]
    have hhead : trimLeftWS (t ++ '_' :: toLowerChars (m ++ '_' :: s)) =
        t ++ '_' :: toLowerChars (m ++ '_' :: s) := by
      rw [ht, List.cons_append]
      exact trimLeft_cons c _ (hw c (by rw [ht]; exact List.mem_cons_self c t'))
    rw [hhead]
    exact trimRight_append_nonws t hw '_' (by decide) _

/-- Keys of two tools with different (non-prefixing) names never collide,
whatever the metric and sub-score names are. -/
theorem metricKey_ne {t1 t2 : Str} (m1 s1 m2 s2 : Str) (w1 : ToolWF t1)
    (w2 : ToolWF t2) (hlen : t1.length ≤ t2.length)
    (hne : t1 ++ ['_'] ≠ (t2 ++ ['_']).take (t1.length + 1)) :
    metricKey t1 m1 s1 ≠ metricKey t2 m2 s2 := by
  intro hc
  rw [metricKey_eq w1, metricKey_eq w2] at hc
  apply hne
  have hc2 : (t1 ++ ['_']) ++ trimRightWS (toLowerChars (m1 ++ '_' :: s1)) =
      (t2 ++ ['_']) ++ trimRightWS (toLowerChars (m2 ++ '_' :: s2)) := by
    simpa [List.append_assoc] using hc
  have ht := congrArg (List.take (t1.length + 1)) hc2
  rw [show t1.length + 1 = (t1 ++ ['_']).length by simp, List.take_left] at ht
  rw [List.take_append_eq_append_take] at ht
  have hz : (t1 ++ ['_']).length - (t2 ++ ['_']).length = 0 := by
    simp only [List.length_append, List.length_cons, List.length_nil]
    omega
  rw [hz, List.take_zero, List.append_nil] at ht
  rw [show (t1 ++ ['_']).length = t1.length + 1 by simp] at ht
  exact ht

/-! The flattening of parsed score files into the flat beam record. -/

/-- All flat keys a parsed score file generates, one per (metric, sub-score)
pair, in file order. -/
def allKeysOf (tool : Str) (sc : List (Str × List (Str × ℚ))) : List Str :=
  sc.flatMap (fun p => p.2.map (fun q => metricKey tool p.1 q.1))

/-- All flat entries a parsed score file generates. -/
def allEntriesOf (tool : Str) (sc : List (Str × List (Str × ℚ))) : ScoreMap :=
  sc.flatMap (fun p => p.2.map (fun q => (metricKey tool p.1 q.1, q.2)))

/-- The keys a tool contributes given what its file read yields. -/
def keysOfTool (files : Str → FileRead) (t : Str) : List Str :=
  match files t with
  | FileRead.parsed sc => allKeysOf t sc
  | _ => []

/-- The entries a tool contributes given what its file read yields. -/
def entriesOfTool (files : Str → FileRead) (t : Str) : ScoreMap :=
  match files t with
  | FileRead.parsed sc => allEntriesOf t sc
  | _ => []

def isMissingB (files : Str → FileRead) (t : Str) : Bool :=
  match files t with
  | FileRead.missing => true
  | _ => false

def isMalformedB (files : Str → FileRead) (t : Str) : Bool :=
  match files t with
  | FileRead.malformed => true
  | _ => false

theorem mem_allEntriesOf_key {tool : Str} {sc : List (Str × List (Str × ℚ))}
    {e : Str × ℚ} (h : e ∈ allEntriesOf tool sc) : e.1 ∈ allKeysOf tool sc := by
  unfold allEntriesOf at h
  unfold allKeysOf
  rw [List.mem_flatMap] at h ⊢
  obtain ⟨p, hp, he⟩ := h
  rw [List.mem_map] at he
  obtain ⟨q, hq, rfl⟩ := he
  exact ⟨p, hp, List.mem_map_of_mem _ hq⟩

theorem mem_allKeysOf {tool : Str} {sc : List (Str × List (Str × ℚ))} {k : Str}
    (h : k ∈ allKeysOf tool sc) : ∃ m s, k = metricKey tool m s := by
  unfold allKeysOf at h
  rw [List.mem_flatMap] at h
  obtain ⟨p, -, he⟩ := h
  rw [List.mem_map] at he
  obtain ⟨q, -, rfl⟩ := he
  exact ⟨p.1, q.1, rfl⟩

theorem dictInsert_fresh (d : ScoreMap) (k : Str) (v : ℚ)
    (h : ∀ e ∈ d, e.1 ≠ k) : dictInsert d k v = d ++ [(k, v)] := by
  unfold dictInsert
  have ha : d.any (fun e => decide (e.1 = k)) = false := by
    rw [List.any_eq_false]
    intro e he
    simpa using h e he
  rw [ha]
  simp

/-- Folding fresh, pairwise distinct keys into a record appends one entry
per element, in order. -/
theorem foldInsert_fresh {β : Type} (kf : β → Str) (vf : β → ℚ) :
    ∀ (l : List β) (a : ScoreMap),
      (l.map kf).Nodup →
      (∀ x ∈ l, ∀ e ∈ a, e.1 ≠ kf x) →
      l.foldl (fun acc x => dictInsert acc (kf x) (vf x)) a =
        a ++ l.map (fun x => (kf x, vf x)) := by
  intro l
  induction l with
  | nil => intro a _ _; simp
  | cons x rest ih =>
    intro a hnd hfresh
    rw [List.foldl_cons,
      dictInsert_fresh a _ _ (hfresh x (List.mem_cons_self x rest))]
    rw [List.map_cons, List.nodup_cons] at hnd
    rw [ih (a ++ [(kf x, vf x)]) hnd.2 ?_]
    · simp
    · intro y hy e he
      rcases List.mem_append.mp he with he | he
      · exact hfresh y (List.mem_cons_of_mem x hy) e he
      · rw [List.mem_singleton.mp he]
        intro hc
        dsimp only at hc
        exact hnd.1 (by rw [hc]; exact List.mem_map_of_mem kf hy)

/-- Flattening a parsed file whose generated keys are pairwise distinct and
fresh appends exactly one entry per (metric, sub-score) pair. -/
theorem flattenParsed_fresh (tool : Str) :
    ∀ (sc : List (Str × List (Str × ℚ))) (acc : ScoreMap),
      (allKeysOf tool sc).Nodup →
      (∀ k ∈ allKeysOf tool sc, ∀ e ∈ acc, e.1 ≠ k) →
      flattenParsed tool sc acc = acc ++ allEntriesOf tool sc := by
  intro sc
  induction sc with
  | nil => intro acc _ _; simp [flattenParsed, allEntriesOf]
  | cons p rest ih =>
    intro acc hnd hfresh
    have hsplit : allKeysOf tool (p :: rest) =
        p.2.map (fun q => metricKey tool p.1 q.1) ++ allKeysOf tool rest := by
      unfold allKeysOf
      rw [List.flatMap_cons]
    rw [hsplit, List.nodup_append] at hnd
    rw [hsplit] at hfresh
    unfold flattenParsed
    rw [List.foldl_cons]
    have hinner := foldInsert_fresh (fun q : Str × ℚ => metricKey tool p.1 q.1)
      (fun q => q.2) p.2 acc hnd.1
      (fun q hq e he => hfresh _ (List.mem_append_left _
        (List.mem_map_of_mem _ hq)) e he)
    rw [hinner]
    have hrest := ih (acc ++ p.2.map (fun q => (metricKey tool p.1 q.1, q.2)))
      hnd.2.1 ?_
    · unfold flattenParsed at hrest
      rw [hrest]
      unfold allEntriesOf
      rw [List.flatMap_cons, List.append_assoc]
    · intro k hk e he
      rcases List.mem_append.mp he with he | he
      · exact hfresh k (List.mem_append_right _ hk) e he
      · rw [List.mem_map] at he
        obtain ⟨q, hq, rfl⟩ := he
        intro hc
        dsimp only at hc
        exact hnd.2.2 (by rw [← hc]; exact List.mem_map_of_mem _ hq) hk

/-- The per-tool loop of `parse_metrics`, on tools whose generated keys are
pairwise distinct overall: the record collects exactly the entries of the
parsed tools in order, the missing-file warnings name exactly the tools with
no file, the parse errors name exactly the tools with malformed files —
and neither a missing nor a malformed file stops the remaining tools. -/
theorem beamScores_go (files : Str → FileRead) :
    ∀ (tools : List Str) (acc : ScoreMap × List Str × List Str),
      (tools.flatMap (keysOfTool files)).Nodup →
      (∀ k ∈ tools.flatMap (keysOfTool files), ∀ e ∈ acc.1, e.1 ≠ k) →
      tools.foldl (fun acc t =>
        match files t with
        | FileRead.parsed sc => (flattenParsed t sc acc.1, acc.2.1, acc.2.2)
        | FileRead.missing => (acc.1, acc.2.1 ++ [t], acc.2.2)
        | FileRead.malformed => (acc.1, acc.2.1, acc.2.2 ++ [t])) acc =
      (acc.1 ++ tools.flatMap (entriesOfTool files),
       acc.2.1 ++ tools.filter (isMissingB files),
       acc.2.2 ++ tools.filter (isMalformedB files)) := by
  intro tools
  induction tools with
  | nil => intro acc _ _; simp
  | cons t rest ih =>
    intro acc hnd hfresh
    rw [List.flatMap_cons, List.nodup_append] at hnd
    rw [List.flatMap_cons] at hfresh
    rw [List.foldl_cons]
    rcases hf : files t with _ | _ | sc
    · -- missing
      dsimp only
      rw [ih (acc.1, acc.2.1 ++ [t], acc.2.2) hnd.2.1
        (fun k hk e he => hfresh k (List.mem_append_right _ hk) e he)]
      have hm : isMissingB files t = true := by simp [isMissingB, hf]
      have hw : isMalformedB files t = false := by simp [isMalformedB, hf]
      have he : entriesOfTool files t = [] := by simp [entriesOfTool, hf]
      rw [List.flatMap_cons, List.filter_cons, List.filter_cons, hm, hw, he]
      simp
    · -- malformed
      dsimp only
      rw [ih (acc.1, acc.2.1, acc.2.2 ++ [t]) hnd.2.1
        (fun k hk e he => hfresh k (List.mem_append_right _ hk) e he)]
      have hm : isMissingB files t = false := by simp [isMissingB, hf]
      have hw : isMalformedB files t = true := by simp [isMalformedB, hf]
      have he : entriesOfTool files t = [] := by simp [entriesOfTool, hf]
      rw [List.flatMap_cons, List.filter_cons, List.filter_cons, hm, hw, he]
      simp
    · -- parsed
      have hkt : keysOfTool files t = allKeysOf t sc := by
        simp [keysOfTool, hf]
      rw [hkt] at hnd hfresh
      dsimp only
      rw [flattenParsed_fresh t sc acc.1 hnd.1
        (fun k hk e he => hfresh k (List.mem_append_left _ hk) e he)]
      rw [ih (acc.1 ++ allEntriesOf t sc, acc.2.1, acc.2.2) hnd.2.1 ?_]
      · have hm : isMissingB files t = false := by simp [isMissingB, hf]
        have hw : isMalformedB files t = false := by simp [isMalformedB, hf]
        have he : entriesOfTool files t = allEntriesOf t sc := by
          simp [entriesOfTool, hf]
        rw [List.flatMap_cons, List.filter_cons, List.filter_cons, hm, hw, he]
        simp [List.append_assoc]
      · intro k hk e he
        rcases List.mem_append.mp he with he | he
        · exact hfresh k (List.mem_append_right _ hk) e he
        · intro hc
          exact hnd.2.2 (by rw [← hc]; exact mem_allEntriesOf_key he) hk

/-- Derived: for distinct official tools with within-tool distinct keys, the
overall key list is duplicate-free. -/
theorem keysOfTool_flat_nodup (files : Str → FileRead) :
    ∀ (tools : List Str),
      (∀ t ∈ tools, t ∈ officialTools) → tools.Nodup →
      (∀ t ∈ tools, ∀ sc, files t = FileRead.parsed sc → (allKeysOf t sc).Nodup) →
      (∀ t1 ∈ officialTools, ∀ t2 ∈ officialTools, t1 ≠ t2 →
        ∀ m1 s1 m2 s2, metricKey t1 m1 s1 ≠ metricKey t2 m2 s2) →
      (tools.flatMap (keysOfTool files)).Nodup := by
  intro tools
  induction tools with
  | nil => intro _ _ _ _; simp
  | cons t rest ih =>
    intro hsub hnd hschema hcross
    rw [List.flatMap_cons, List.nodup_append]
    rw [List.nodup_cons] at hnd
    refine ⟨?_, ?_, ?_⟩
    · rcases hf : files t with _ | _ | sc
      · simp [keysOfTool, hf]
      · simp [keysOfTool, hf]
      · have : keysOfTool files t = allKeysOf t sc := by simp [keysOfTool, hf]
        rw [this]
        exact hschema t (List.mem_cons_self t rest) sc hf
    · exact ih (fun t' ht' => hsub t' (List.mem_cons_of_mem t ht')) hnd.2
        (fun t' ht' => hschema t' (List.mem_cons_of_mem t ht')) hcross
    · intro k hk hk'
      rw [List.mem_flatMap] at hk'
      obtain ⟨t', ht', hkt'⟩ := hk'
      have hkey : ∃ m s, k = metricKey t m s := by
        rcases hf : files t with _ | _ | sc
        · rw [keysOfTool, hf] at hk; cases hk
        · rw [keysOfTool, hf] at hk; cases hk
        · rw [keysOfTool, hf] at hk; exact mem_allKeysOf hk
      have hkey' : ∃ m s, k = metricKey t' m s := by
        rcases hf : files t' with _ | _ | sc
        · rw [keysOfTool, hf] at hkt'; cases hkt'
        · rw [keysOfTool, hf] at hkt'; cases hkt'
        · rw [keysOfTool, hf] at hkt'; exact mem_allKeysOf hkt'
      obtain ⟨m1, s1, rfl⟩ := hkey
      obtain ⟨m2, s2, hk2⟩ := hkey'
      have htne : t ≠ t' := fun hc => hnd.1 (hc ▸ ht')
      exact hcross t (hsub t (List.mem_cons_self t rest)) t'
        (hsub t' (List.mem_cons_of_mem t ht')) htne m1 s1 m2 s2 hk2

/-- Claim C8: flat metric keys of distinct official tools never collide (for
any metric and sub-score names); for a tool set with within-tool distinct
keys (the known schemas), `parse_metrics` produces exactly one flat key per
(metric, sub-score) pair of each parsed tool, in order; a missing score file
puts the tool in the warning list and leaves its record empty; a malformed
file puts the tool in the parse-error list, contributes nothing, and does
not abort the remaining tools. -/
theorem C8_metric_flattening (files : Str → FileRead) (tools : List Str)
    (hsub : ∀ t ∈ tools, t ∈ officialTools) (hnd : tools.Nodup)
    (hschema : ∀ t ∈ tools, ∀ sc, files t = FileRead.parsed sc →
      (allKeysOf t sc).Nodup) :
    (∀ t1 ∈ officialTools, ∀ t2 ∈ officialTools, t1 ≠ t2 →
        ∀ m1 s1 m2 s2, metricKey t1 m1 s1 ≠ metricKey t2 m2 s2)
    ∧ (beamScores files tools).1 = tools.flatMap (entriesOfTool files)
    ∧ (beamScores files tools).2.1 = tools.filter (isMissingB files)
    ∧ (beamScores files tools).2.2 = tools.filter (isMalformedB files) := by
  have hcross : ∀ t1 ∈ officialTools, ∀ t2 ∈ officialTools, t1 ≠ t2 →
      ∀ m1 s1 m2 s2, metricKey t1 m1 s1 ≠ metricKey t2 m2 s2 := by
    intro t1 h1 t2 h2 hne m1 s1 m2 s2
    simp only [officialTools, List.mem_cons, List.not_mem_nil, or_false] at h1 h2
    rcases h1 with rfl | rfl | rfl | rfl | rfl | rfl <;>
      rcases h2 with rfl | rfl | rfl | rfl | rfl | rfl <;>
      first
        | exact absurd rfl hne
        | exact metricKey_ne m1 s1 m2 s2 (by decide) (by decide) (by decide) (by decide)
        | exact (metricKey_ne m2 s2 m1 s1 (by decide) (by decide) (by decide) (by decide)).symm
  have hflat := keysOfTool_flat_nodup files tools hsub hnd hschema hcross
  have hgo := beamScores_go files tools ([], [], []) hflat
    (fun k _ e he => absurd he (List.not_mem_nil e))
  refine ⟨hcross, ?_, ?_, ?_⟩ <;>
    (unfold beamScores; rw [hgo]; simp)


def wTools8 : List Str :=
  [("sacrebleu".toList), ("bertscore".toList), ("comet".toList)]

def wFiles8 : Str → FileRead := fun t =>
  if t = ("sacrebleu".toList) then
    FileRead.parsed [(("bleu".toList), [(("score".toList), (31 : ℚ))])]
  else if t = ("bertscore".toList) then FileRead.missing
  else FileRead.malformed

/-- Concrete instance of C8: a parsed sacrebleu file flattens to the single
key `sacrebleu_bleu_score`, the missing bertscore file is warned, and the
malformed comet file is reported without stopping the loop. -/
theorem C8_metric_flattening_witness :
    (beamScores wFiles8 wTools8).1 =
      [(("sacrebleu_bleu_score".toList), (31 : ℚ))]
    ∧ (beamScores wFiles8 wTools8).2.1 = [("bertscore".toList)]
    ∧ (beamScores wFiles8 wTools8).2.2 = [("comet".toList)] := by
  have hschema : ∀ t ∈ wTools8, ∀ sc, wFiles8 t = FileRead.parsed sc →
      (allKeysOf t sc).Nodup := by
    intro t ht sc hsc
    simp only [wTools8, List.mem_cons, List.not_mem_nil, or_false] at ht
    rcases ht with rfl | rfl | rfl
    · rw [show wFiles8 ("sacrebleu".toList) =
        FileRead.parsed [(("bleu".toList), [(("score".toList), (31 : ℚ))])] from rfl] at hsc
      injection hsc with h
      subst h
      decide
    · simp [wFiles8] at hsc
    · simp [wFiles8] at hsc
  have h := C8_metric_flattening wFiles8 wTools8 (by decide) (by decide) hschema
  exact ⟨h.2.1.trans (by rfl), h.2.2.1.trans (by rfl), h.2.2.2.trans (by rfl)⟩

end AutoNMT
